import Mathlib

/-!
Verification of the family-graph storage and query layer of the familytree
repository (`src/server/src/database.ts`) against its specification.

The persons table is modelled as a list of `PersonRecord` in insertion order
(the order `SELECT * FROM persons` enumerates rows).  Only the fields that
influence control flow are kept: `id`, `name`, `parentId`, `spouseId`.  The
purely descriptive columns (`gender`, `birthDate`, `deathDate`, `photoUrl`,
`bio`, `location`) are never inspected by the tree, path or mutation logic and
are omitted.  `null` columns become `Option.none`; the sentinel string
`"SPOUSE"` stored in `parentId` is kept verbatim.

`db.get('SELECT * FROM persons WHERE id = ?')` is modelled by `findRecord`
(first match).  The TypeScript code also uses a `Map` keyed by id, for which a
later `set` with a duplicate key wins; since `id` is the table's PRIMARY KEY,
duplicates cannot exist in a real store, and the theorems that need it carry a
`Nodup` hypothesis on the id column.
-/

namespace FamilyTree

/-- A row of the `persons` table (control-flow-relevant columns). -/
structure PersonRecord where
  id : String
  name : String
  parentId : Option String
  spouseId : Option String
  deriving DecidableEq, Repr

/-- The persons table, in row (insertion) order. -/
abbrev Store := List PersonRecord

/-- Models `db.get('SELECT * FROM persons WHERE id = ?', id)`. -/
def findRecord (store : Store) (id : String) : Option PersonRecord :=
  store.find? (fun p => p.id = id)

/-- Some row of the store has the given id. -/
def memId (store : Store) (id : String) : Bool :=
  store.any (fun p => p.id = id)

/-- The sentinel value stored in `parentId` marking a spouse-only record. -/
def spouseSentinel : String := "SPOUSE"

/-- Models `UPDATE persons SET parentId = ? WHERE id = ?`. -/
def setParent (store : Store) (id : String) (v : Option String) : Store :=
  store.map (fun q => if q.id = id then { q with parentId := v } else q)

/-- Models `UPDATE persons SET spouseId = ? WHERE id = ?`. -/
def setSpouse (store : Store) (id : String) (v : Option String) : Store :=
  store.map (fun q => if q.id = id then { q with spouseId := v } else q)

/-- The four relationship kinds accepted by `addPerson`. -/
inductive RelationshipType where
  | Spouse | Child | Sibling | Parent
  deriving DecidableEq, Repr

/-- Models `addPerson` from `database.ts`: the new row is inserted with both
link columns `NULL`, then linked according to the relationship type.  The
freshly generated id (`person-` followed by a timestamp in the source) is taken
as the argument `newId`. -/
def addPerson (store : Store) (newId newName : String)
    (relationship : RelationshipType) (relativeToId : String) : Store :=
  let inserted : Store := store ++ [⟨newId, newName, none, none⟩]
  match relationship with
  | .Spouse =>
      let s1 := setParent inserted newId (some spouseSentinel)
      let s2 := setSpouse s1 relativeToId (some newId)
      setSpouse s2 newId (some relativeToId)
  | .Child => setParent inserted newId (some relativeToId)
  | .Sibling =>
      match findRecord inserted relativeToId with
      | some relative =>
          match relative.parentId with
          | some pid => setParent inserted newId (some pid)
          | none => inserted
      | none => inserted
  | .Parent => setParent inserted relativeToId (some newId)

/-- Models `updatePerson` from `database.ts`: overwrite the descriptive fields
of the given id, optionally also those of a spouse payload, and return the
store together with the re-read row (`db.get` after the update, which is
`undefined`, i.e. `none`, when the id does not exist — no error is raised). -/
def updatePerson (store : Store) (personId : String) (newName : String)
    (spousePayload : Option (String × String)) : Store × Option PersonRecord :=
  let s1 := store.map (fun q => if q.id = personId then { q with name := newName } else q)
  let s2 := match spousePayload with
    | some sp => s1.map (fun q => if q.id = sp.1 then { q with name := sp.2 } else q)
    | none => s1
  (s2, findRecord s2 personId)

/-- Models `UPDATE persons SET parentId = NULL WHERE parentId = ?`: every row
that pointed at the deleted id as parent is orphaned. -/
def orphanChildren (store : Store) (personId : String) : Store :=
  store.map (fun q =>
    if q.parentId = some personId then { q with parentId := none } else q)

/-- Models `deletePerson` from `database.ts`: `none` models the thrown
`"Person not found"` error; otherwise the spouse (if linked) is unlinked, the
row deleted, and every row whose `parentId` pointed at the deleted id is
orphaned. -/
def deletePerson (store : Store) (personId : String) : Option Store :=
  match findRecord store personId with
  | none => none
  | some person =>
      let s1 := match person.spouseId with
        | some sid => setSpouse store sid none
        | none => store
      let s2 := s1.filter (fun q => q.id ≠ personId)
      some (orphanChildren s2 personId)

/-! ## Tree Reconstructor (`getFamilyTree`) -/

/-- The three distinct errors `getFamilyTree` can throw:
`'No persons found in the database.'`, `'Person with id … not found.'` and
`'Root person not found … corrupted.'`. -/
inductive TreeError where
  | EmptyTree
  | NotFound
  | CorruptTree
  deriving DecidableEq, Repr

/-- The flattened, non-recursive spouse snapshot attached to a tree node
(descriptive fields only, no `children`/`spouse` of its own). -/
structure SpouseSnap where
  id : String
  name : String
  deriving DecidableEq, Repr

/-- A reconstructed tree node: the record, an optional spouse snapshot, and
the list of child nodes. -/
inductive TreeNode where
  | node (record : PersonRecord) (spouse : Option SpouseSnap) (children : List TreeNode)

def TreeNode.record : TreeNode → PersonRecord
  | .node r _ _ => r

def TreeNode.spouse : TreeNode → Option SpouseSnap
  | .node _ s _ => s

def TreeNode.children : TreeNode → List TreeNode
  | .node _ _ cs => cs

/-- The spouse snapshot of a record: resolved via the person map, absent when
`spouseId` is `NULL` or does not resolve. -/
def spouseSnap (store : Store) (p : PersonRecord) : Option SpouseSnap :=
  match p.spouseId with
  | some sid => (findRecord store sid).map (fun s => ⟨s.id, s.name⟩)
  | none => none

/-- The records linked into a node's `children` array: rows whose non-sentinel
`parentId` equals the node's id, in row order. -/
def childRecords (store : Store) (pid : String) : Store :=
  store.filter (fun q => decide (q.parentId = some pid ∧ q.parentId ≠ some spouseSentinel))

/-- Functional reconstruction of the node graph the second pass of
`getFamilyTree` builds by mutation.  `fuel` bounds the recursion depth; the
call sites use `store.length`, which is enough for every store whose rows obey
the primary-key invariant, because a node reachable from a parentless root
can never repeat on a descent path (each row has a single `parentId`). -/
def buildNode (store : Store) : Nat → PersonRecord → TreeNode
  | 0, p => .node p (spouseSnap store p) []
  | fuel + 1, p =>
      .node p (spouseSnap store p)
        ((childRecords store p.id).map (fun c => buildNode store fuel c))

mutual

/-- Models the `countNodes` helper of `getFamilyTree`:
`1 + children.reduce((sum, child) => sum + countNodes(child), 0)`. -/
def countNodes : TreeNode → Nat
  | .node _ _ children => 1 + countNodesList children

def countNodesList : List TreeNode → Nat
  | [] => 0
  | c :: cs => countNodes c + countNodesList cs

end

/-- The `childIds` set of the first pass: ids of rows whose `parentId` is
non-null and not the spouse sentinel. -/
def childIdList (store : Store) : List String :=
  (store.filter (fun p => decide (p.parentId ≠ none ∧ p.parentId ≠ some spouseSentinel))).map
    (fun p => p.id)

/-- The `potentialRoots` of the third pass: rows that are not marked as
children and are not spouse-sentinel rows. -/
def rootCandidates (store : Store) : Store :=
  store.filter (fun p => decide (p.id ∉ childIdList store ∧ p.parentId ≠ some spouseSentinel))

/-- Root selection of `getFamilyTree` when no `rootId` is given: no candidate
falls back to the first row of the map, a single candidate is taken directly,
and among several candidates a fold keeps the first one whose `countNodes`
strictly exceeds the running maximum (initially `0`). -/
def selectRoot (store : Store) : Option PersonRecord :=
  match rootCandidates store with
  | [] => store.head?
  | [c] => some c
  | c1 :: c2 :: rest =>
      ((c1 :: c2 :: rest).foldl
        (fun acc c =>
          if countNodes (buildNode store store.length c) > acc.1
          then (countNodes (buildNode store store.length c), some c) else acc)
        ((0 : Nat), (none : Option PersonRecord))).2

/-- Models `getFamilyTree` from `database.ts`. -/
def getFamilyTree (store : Store) (rootId : Option String) : Except TreeError TreeNode :=
  if store.isEmpty then .error .EmptyTree
  else
    match rootId with
    | some rid =>
        match findRecord store rid with
        | some p => .ok (buildNode store store.length p)
        | none => .error .NotFound
    | none =>
        match selectRoot store with
        | some p => .ok (buildNode store store.length p)
        | none => .error .CorruptTree

/-! ## Path Finder (`findRelationshipPath`) -/

/-- The hop kind attached to a `PathSegment`. -/
inductive Rel where
  | start | parent | child | spouse
  deriving DecidableEq, Repr

/-- One segment of a discovered relationship path. -/
structure PathSegment where
  personId : String
  personName : String
  relationship : Rel
  deriving DecidableEq, Repr

/-- Appending one neighbour to one adjacency array:
`adj.get(k)!.push(v)` on the map viewed as a total function defaulting to the
empty array. -/
def pushNeighbor (adj : String → List String) (k v : String) : String → List String :=
  fun x => if x = k then adj x ++ [v] else adj x

/-- The adjacency map built by `findRelationshipPath`, viewed as a total
function from id to neighbour array (a key that was never set reads as the
empty array, matching `adj.get(personId) || []`).  For each row, a non-null
non-sentinel `parentId` adds the edge in both directions, then a non-null
`spouseId` adds the edge in both directions, in row order. -/
def adjStep (adj : String → List String) (person : PersonRecord) : String → List String :=
  let adj1 :=
    match person.parentId with
    | some pid =>
        if pid ≠ spouseSentinel
        then pushNeighbor (pushNeighbor adj person.id pid) pid person.id
        else adj
    | none => adj
  match person.spouseId with
  | some sid => pushNeighbor (pushNeighbor adj1 person.id sid) sid person.id
  | none => adj1

def buildAdj (store : Store) : String → List String :=
  store.foldl adjStep (fun _ => [])

/-- Every id that can ever appear in the adjacency structure: row ids and the
targets of their link columns.  Used only to bound the BFS fuel. -/
def mentions (store : Store) : List String :=
  store.flatMap (fun r =>
    [r.id] ++ (match r.parentId with | some p => [p] | none => [])
      ++ (match r.spouseId with | some s => [s] | none => []))

/-- The body of the neighbour loop of the BFS: each not-yet-visited neighbour
is marked visited and its extended path is appended to the queue, sequentially
in neighbour-array order. -/
def enqueueStep (path : List String) (acc : List (List String) × List String)
    (nb : String) : List (List String) × List String :=
  if nb ∈ acc.2 then acc else (acc.1 ++ [path ++ [nb]], nb :: acc.2)

/-- The BFS loop of `findRelationshipPath`: pop the front path, return it when
its last node is `endId`, otherwise enqueue the unvisited neighbours of its
last node.  The source loops until the queue empties; here a fuel argument
makes the recursion structural, and the initial fuel chosen in
`findRelationshipPath` is proved large enough that exhaustion (which returns
`none`, like an empty queue) is never reached. -/
def bfsAux (adj : String → List String) (endId : String) :
    Nat → List (List String) → List String → Option (List String)
  | 0, _, _ => none
  | _ + 1, [], _ => none
  | fuel + 1, path :: rest, visited =>
      let personId := path.getLastD ""
      if personId = endId then some path
      else
        let st := (adj personId).foldl (enqueueStep path) (rest, visited)
        bfsAux adj endId fuel st.1 st.2

/-- Hop classification of the reconstruction loop: default `child`,
`parent` when the previous record's `parentId` names the current id, else
`spouse` when the previous record's `spouseId` names it. -/
def classifyHop (prev : PersonRecord) (currId : String) : Rel :=
  if prev.parentId = some currId then .parent
  else if prev.spouseId = some currId then .spouse
  else .child

/-- Path reconstruction for the nodes after the first: each node is looked up
in the person map (`personMap.get(currentId)!` — a failed lookup is the
TypeScript `TypeError` of reading `.name` of `undefined`, modelled as `none`)
and tagged by `classifyHop` against the previous record. -/
def reconstructTail (store : Store) (prevId : String) :
    List String → Option (List PathSegment)
  | [] => some []
  | c :: rest => do
      let cur ← findRecord store c
      let prev ← findRecord store prevId
      let tail ← reconstructTail store c rest
      some (⟨c, cur.name, classifyHop prev c⟩ :: tail)

/-- Path reconstruction: the first node is tagged `start`, the rest by
`reconstructTail`. -/
def reconstructPath (store : Store) : List String → Option (List PathSegment)
  | [] => some []
  | c :: rest => do
      let p ← findRecord store c
      let tail ← reconstructTail store c rest
      some (⟨c, p.name, Rel.start⟩ :: tail)

/-- Models `findRelationshipPath` from `database.ts`.  `Except.ok none` is the
`null` no-relationship outcome; `Except.error ()` is the uncaught `TypeError`
thrown when the reconstruction loop dereferences a node id that has no row
(possible only through dangling link columns). -/
def findRelationshipPath (store : Store) (startId endId : String) :
    Except Unit (Option (List PathSegment)) :=
  let adj := buildAdj store
  let fuel := 2 * (mentions store).length + 2
  match bfsAux adj endId fuel [[startId]] [startId] with
  | none => .ok none
  | some path =>
      match reconstructPath store path with
      | some segs => .ok (some segs)
      | none => .error ()

/-! ## The relationship graph of the specification

The spec describes the search space as the undirected graph whose edges are
the resolvable non-sentinel parent/child links and the resolvable spouse
links.  `hasEdge` is that edge relation, and `IsPath` the resulting path
predicate used to state shortest-path correctness. -/

/-- Undirected edge of the spec's relationship graph: some row owns a
non-sentinel parent link or a spouse link between the two ids, and the target
of the link resolves to an existing row. -/
def hasEdge (store : Store) (a b : String) : Bool :=
  store.any (fun r =>
    (r.id = a ∧ ((r.parentId = some b ∧ b ≠ spouseSentinel ∧ memId store b) ∨
                 (r.spouseId = some b ∧ memId store b))) ∨
    (r.id = b ∧ ((r.parentId = some a ∧ a ≠ spouseSentinel ∧ memId store a) ∨
                 (r.spouseId = some a ∧ memId store a))))

/-- Consecutive nodes of the list are joined by edges. -/
def edgeChain (store : Store) : List String → Prop
  | [] => True
  | [_] => True
  | a :: b :: rest => hasEdge store a b = true ∧ edgeChain store (b :: rest)

/-- A path of the spec's relationship graph from `s` to `e`: a non-empty node
sequence starting at `s`, ending at `e`, with consecutive nodes adjacent.  Its
edge count is `l.length - 1`. -/
def IsPath (store : Store) (s e : String) (l : List String) : Prop :=
  l.head? = some s ∧ l.getLast? = some e ∧ edgeChain store l

/-- No row's link columns dangle: every non-sentinel `parentId` and every
`spouseId` references an existing row.  (The spec's data-model invariant.) -/
def noDangling (store : Store) : Bool :=
  store.all (fun r =>
    (match r.parentId with
     | some p => p = spouseSentinel || memId store p
     | none => true) &&
    (match r.spouseId with
     | some s => memId store s
     | none => true))

/-- The symmetric-spouse invariant of the data model: if A's `spouseId` names
B then B's `spouseId` names A. -/
def SpouseSym (store : Store) : Prop :=
  ∀ p ∈ store, ∀ q ∈ store, p.spouseId = some q.id → q.spouseId = some p.id

instance (store : Store) : Decidable (SpouseSym store) := by
  unfold SpouseSym; infer_instance

/-! ## Auxiliary notions for the breadth-first search proofs -/

/-- One record's contribution to the adjacency entry `a ↦ b`: the record owns
a non-sentinel parent link or a spouse link joining `a` and `b` (in either
direction). -/
def AdjContribP (r : PersonRecord) (a b : String) : Prop :=
  (∃ pid, r.parentId = some pid ∧ pid ≠ spouseSentinel ∧
    ((a = r.id ∧ b = pid) ∨ (a = pid ∧ b = r.id))) ∨
  (∃ sid, r.spouseId = some sid ∧ ((a = r.id ∧ b = sid) ∨ (a = sid ∧ b = r.id)))

/-- How many copies of `b` one record pushes into the adjacency array of `a`. -/
def adjContrib (r : PersonRecord) (a b : String) : Nat :=
  (match r.parentId with
   | some pid =>
       if pid ≠ spouseSentinel then
         (if a = r.id ∧ b = pid then 1 else 0) + (if a = pid ∧ b = r.id then 1 else 0)
       else 0
   | none => 0) +
  (match r.spouseId with
   | some sid =>
       (if a = r.id ∧ b = sid then 1 else 0) + (if a = sid ∧ b = r.id then 1 else 0)
   | none => 0)

/-- Consecutive nodes of the list are neighbours in the adjacency structure. -/
def adjChain (adj : String → List String) : List String → Prop
  | [] => True
  | [_] => True
  | x :: y :: rest => y ∈ adj x ∧ adjChain adj (y :: rest)

/-- A path of the adjacency structure from `s` to `e`. -/
def AdjPath (adj : String → List String) (s e : String) (l : List String) : Prop :=
  l ≠ [] ∧ l.head? = some s ∧ adjChain adj l ∧ l.getLast? = some e

/-- Termination measure of the BFS loop: queue length plus twice the number
of universe nodes not yet visited. -/
def bfsMeasure (U visited : List String) (queue : List (List String)) : Nat :=
  queue.length + 2 * (U.toFinset \ visited.toFinset).card

/-- Structural invariant of the BFS queue: each pending entry is a duplicate-
free adjacency path from the start node whose nodes are all visited. -/
def QueueInv (adj : String → List String) (s : String) (visited : List String)
    (queue : List (List String)) : Prop :=
  ∀ p ∈ queue, p ≠ [] ∧ p.head? = some s ∧ p.Nodup ∧ (∀ x ∈ p, x ∈ visited) ∧ adjChain adj p

/-- Every visited node either still has its discovery path pending in the
queue, or has been fully processed, i.e. all its neighbours are visited. -/
def PendingOrClosed (adj : String → List String) (visited : List String)
    (queue : List (List String)) : Prop :=
  ∀ v ∈ visited, (∃ p ∈ queue, p.getLastD "" = v) ∨ (∀ w ∈ adj v, w ∈ visited)

/-- If the target has been visited, its discovery path is still pending (the
loop would have returned when popping it). -/
def TargetPending (endId : String) (visited : List String)
    (queue : List (List String)) : Prop :=
  endId ∈ visited → ∃ p ∈ queue, p.getLastD "" = endId

/-- The queue is sorted by path length and spans at most two consecutive
lengths. -/
def SortedLens (queue : List (List String)) : Prop :=
  (queue.map List.length).Pairwise (fun m n => m ≤ n) ∧
  ∀ p1, queue.head? = some p1 → ∀ p ∈ queue, p.length ≤ p1.length + 1

/-- Every pending path is a shortest adjacency path from `s` to its endpoint. -/
def ShortestPending (adj : String → List String) (s : String)
    (queue : List (List String)) : Prop :=
  ∀ p ∈ queue, ∀ l : List String, l ≠ [] → l.head? = some s → adjChain adj l →
    l.getLast? = p.getLast? → p.length ≤ l.length

/-- The hop-classification contract of a reconstructed segment list: each
segment after the first is tagged by `classifyHop` of the previous segment's
record against the current id. -/
def TagChain (store : Store) : String → List PathSegment → Prop
  | _, [] => True
  | prevId, sg :: rest =>
      (∃ prev, findRecord store prevId = some prev ∧
        sg.relationship = classifyHop prev sg.personId) ∧
      TagChain store sg.personId rest

/-! ## Basic lemmas about the record store -/

theorem not_memId_iff {store : Store} {id : String} :
    memId store id = false ↔ ∀ p ∈ store, p.id ≠ id := by
  simp [memId]

theorem findRecord_eq_none {store : Store} {id : String} (h : memId store id = false) :
    findRecord store id = none := by
  rw [findRecord, List.find?_eq_none]
  intro p hp
  simpa using not_memId_iff.mp h p hp

theorem findRecord_mem {store : Store} {id : String} {p : PersonRecord}
    (h : findRecord store id = some p) : p ∈ store :=
  List.mem_of_find?_eq_some h

theorem findRecord_id {store : Store} {id : String} {p : PersonRecord}
    (h : findRecord store id = some p) : p.id = id := by
  have := List.find?_some h
  simpa using this

theorem map_eq_self_of_mem {α : Type} {l : List α} {f : α → α} (h : ∀ a ∈ l, f a = a) :
    l.map f = l := by
  induction l with
  | nil => rfl
  | cons a t ih =>
      simp only [List.map_cons, h a (by simp), List.cons.injEq, true_and]
      exact ih fun b hb => h b (by simp [hb])

/-! ## Claim C7: reconstruction errors and the zero-candidate fallback -/

/-- Claim C7 as stated is false: with an empty store and an explicit
`rootId` matching no record, `getFamilyTree` fails with the EmptyTree error
(`'No persons found in the database.'`, checked before the root lookup), not
with NotFound. -/
theorem claim7_counterexample :
    getFamilyTree ([] : Store) (some "x") = .error .EmptyTree ∧
    TreeError.EmptyTree ≠ TreeError.NotFound := by
  exact ⟨rfl, by decide⟩

/-- Claim C7, amended: an empty store always fails with EmptyTree, whatever
the requested root; on a non-empty store an explicit `rootId` matching no
record fails with NotFound; and with no `rootId` and zero root candidates the
reconstruction falls back to the first record of the store. -/
theorem claim7_amended :
    (∀ rid : Option String, getFamilyTree ([] : Store) rid = .error .EmptyTree) ∧
    (∀ (store : Store) (rid : String), store ≠ [] → memId store rid = false →
      getFamilyTree store (some rid) = .error .NotFound) ∧
    (∀ store : Store, store ≠ [] → rootCandidates store = [] →
      ∃ p, store.head? = some p ∧
        getFamilyTree store none = .ok (buildNode store store.length p)) := by
  refine ⟨fun rid => by cases rid <;> rfl, ?_, ?_⟩
  · intro store rid hne hmem
    simp [getFamilyTree, List.isEmpty_iff, hne, findRecord_eq_none hmem]
  · intro store hne hcand
    obtain ⟨p, t, rfl⟩ : ∃ p t, store = p :: t := by
      cases store with
      | nil => exact absurd rfl hne
      | cons p t => exact ⟨p, t, rfl⟩
    refine ⟨p, rfl, ?_⟩
    simp only [getFamilyTree, selectRoot, hcand, List.head?]
    rfl

/-- Claim C7 holds with a hypothesis; a closed instance of each part. -/
theorem claim7_witness :
    getFamilyTree [(⟨"a", "A", none, none⟩ : PersonRecord)] (some "zzz") = .error .NotFound ∧
    ∃ p, ([(⟨"a", "A", some "SPOUSE", none⟩ : PersonRecord)] : Store).head? = some p ∧
      getFamilyTree [(⟨"a", "A", some "SPOUSE", none⟩ : PersonRecord)] none =
        .ok (buildNode [(⟨"a", "A", some "SPOUSE", none⟩ : PersonRecord)] 1 p) :=
  ⟨claim7_amended.2.1 _ "zzz" (by simp) (by decide),
   claim7_amended.2.2 _ (by simp) (by decide)⟩

/-! ## Claim C8: update on a non-existent id -/

/-- Claim C8 as stated is false: `updatePerson` on a non-existent id does not
signal NotFound; the UPDATE statement matches no row and the function returns
normally, with `undefined` (`none`) as the re-read record. -/
theorem claim8_counterexample :
    updatePerson ([] : Store) "x" "NewName" none = (([] : Store), none) := rfl

/-- Claim C8, amended: `updatePerson` on an id with no record performs no
change (with no spouse payload the store is returned untouched), returns
`none` instead of the updated record, and signals no error at all. -/
theorem claim8_amended :
    ∀ (store : Store) (pid nm : String) (sp : Option (String × String)),
      memId store pid = false →
      (updatePerson store pid nm none).1 = store ∧
      (updatePerson store pid nm sp).2 = none := by
  intro store pid nm sp hmem
  have hid : ∀ p ∈ store, p.id ≠ pid := not_memId_iff.mp hmem
  constructor
  · show store.map _ = store
    exact map_eq_self_of_mem fun q hq => by rw [if_neg (hid q hq)]
  · apply findRecord_eq_none
    rw [not_memId_iff]
    intro q hq
    rcases sp with _ | sp <;> simp only [updatePerson] at hq
    · obtain ⟨r, hr, rfl⟩ := List.mem_map.mp hq
      rw [if_neg (hid r hr)]
      exact hid r hr
    · obtain ⟨r1, hr1, rfl⟩ := List.mem_map.mp hq
      obtain ⟨r, hr, rfl⟩ := List.mem_map.mp hr1
      rw [if_neg (hid r hr)]
      by_cases h2 : r.id = sp.1
      · rw [if_pos h2]
        exact hid r hr
      · rw [if_neg h2]
        exact hid r hr

/-- Claim C8 amended, closed instance. -/
theorem claim8_witness :
    (updatePerson [(⟨"a", "A", none, none⟩ : PersonRecord)] "zzz" "N" (some ("a", "B"))).2 =
      none :=
  (claim8_amended [⟨"a", "A", none, none⟩] "zzz" "N" (some ("a", "B")) (by decide)).2

/-! ## Claim C5: deletePerson unlinks, removes, orphans, and does not cascade -/

/-- Claim C5: for an id that has a record, `deletePerson` succeeds and yields
a store where (1) no record has the deleted id, (2) no record's `parentId`
points at the deleted id any more, (3) the linked spouse, if any, has its
`spouseId` set to null, and (4) every other record survives with its name,
those that were children of the deleted id now having `parentId = null` —
the delete is non-recursive and non-cascading. -/
theorem orphanFn_id (pid : String) (r : PersonRecord) :
    (if r.parentId = some pid then { r with parentId := none } else r).id = r.id := by
  by_cases h : r.parentId = some pid <;> simp [h]

theorem orphanFn_name (pid : String) (r : PersonRecord) :
    (if r.parentId = some pid then { r with parentId := none } else r).name = r.name := by
  by_cases h : r.parentId = some pid <;> simp [h]

theorem orphanFn_spouseId (pid : String) (r : PersonRecord) :
    (if r.parentId = some pid then { r with parentId := none } else r).spouseId = r.spouseId := by
  by_cases h : r.parentId = some pid <;> simp [h]

theorem orphanFn_parentId (pid : String) (r : PersonRecord) :
    (if r.parentId = some pid then { r with parentId := none } else r).parentId =
      if r.parentId = some pid then none else r.parentId := by
  by_cases h : r.parentId = some pid <;> simp [h]

theorem spouseFn_id (sid : String) (v : Option String) (r : PersonRecord) :
    (if r.id = sid then { r with spouseId := v } else r).id = r.id := by
  by_cases h : r.id = sid <;> simp [h]

theorem spouseFn_name (sid : String) (v : Option String) (r : PersonRecord) :
    (if r.id = sid then { r with spouseId := v } else r).name = r.name := by
  by_cases h : r.id = sid <;> simp [h]

theorem spouseFn_parentId (sid : String) (v : Option String) (r : PersonRecord) :
    (if r.id = sid then { r with spouseId := v } else r).parentId = r.parentId := by
  by_cases h : r.id = sid <;> simp [h]

theorem claim5_delete_shape :
    ∀ (store : Store) (personId : String) (person : PersonRecord),
      findRecord store personId = some person →
      ∃ store2, deletePerson store personId = some store2 ∧
        (∀ q ∈ store2, q.id ≠ personId) ∧
        (∀ q ∈ store2, q.parentId ≠ some personId) ∧
        (∀ sid, person.spouseId = some sid → ∀ q ∈ store2, q.id = sid → q.spouseId = none) ∧
        (∀ q ∈ store, q.id ≠ personId →
          ∃ r ∈ store2, r.id = q.id ∧ r.name = q.name ∧
            (q.parentId = some personId → r.parentId = none)) := by
  intro store personId person hfind
  simp only [deletePerson, hfind]
  refine ⟨_, rfl, ?_, ?_, ?_, ?_⟩
  · intro q hq
    obtain ⟨r, hr, rfl⟩ := List.mem_map.mp hq
    rw [orphanFn_id]
    simpa using (List.mem_filter.mp hr).2
  · intro q hq
    obtain ⟨r, hr, rfl⟩ := List.mem_map.mp hq
    rw [orphanFn_parentId]
    by_cases hp : r.parentId = some personId <;> simp [hp]
  · intro sid hsid q hq hqid
    obtain ⟨r, hr, rfl⟩ := List.mem_map.mp hq
    rw [orphanFn_id] at hqid
    rw [orphanFn_spouseId]
    have hr1 : r ∈ setSpouse store sid none := by
      have h := (List.mem_filter.mp hr).1
      rw [hsid] at h
      exact h
    obtain ⟨r0, _, rfl⟩ := List.mem_map.mp hr1
    rw [spouseFn_id] at hqid
    rw [if_pos hqid]
  · intro q hq hqid
    cases hsid : person.spouseId with
    | none =>
        have hfil : q ∈ List.filter (fun r => decide (r.id ≠ personId)) store :=
          List.mem_filter.mpr ⟨hq, by simpa using hqid⟩
        refine ⟨_, List.mem_map.mpr ⟨q, hfil, rfl⟩, orphanFn_id _ _, orphanFn_name _ _, ?_⟩
        intro hqp
        rw [orphanFn_parentId, if_pos hqp]
    | some sid =>
        have hmem : (if q.id = sid then { q with spouseId := none } else q)
            ∈ setSpouse store sid none := List.mem_map.mpr ⟨q, hq, rfl⟩
        have hfil : (if q.id = sid then { q with spouseId := none } else q)
            ∈ List.filter (fun r => decide (r.id ≠ personId)) (setSpouse store sid none) :=
          List.mem_filter.mpr ⟨hmem, by rw [spouseFn_id]; simpa using hqid⟩
        refine ⟨_, List.mem_map.mpr ⟨_, hfil, rfl⟩, ?_, ?_, ?_⟩
        · rw [orphanFn_id, spouseFn_id]
        · rw [orphanFn_name, spouseFn_name]
        · intro hqp
          rw [orphanFn_parentId, spouseFn_parentId, hqp]
          simp

/-- Claim C5, closed instance: deleting a parent with two children leaves
both children present, orphaned. -/
theorem claim5_witness :
    ∃ store2,
      deletePerson
        [(⟨"p", "P", none, none⟩ : PersonRecord),
         ⟨"c1", "C1", some "p", none⟩, ⟨"c2", "C2", some "p", none⟩] "p" = some store2 ∧
      (∀ q ∈ store2, q.id ≠ "p") ∧
      (∀ q ∈ store2, q.parentId ≠ some "p") ∧
      (∀ sid, (⟨"p", "P", none, none⟩ : PersonRecord).spouseId = some sid →
        ∀ q ∈ store2, q.id = sid → q.spouseId = none) ∧
      (∀ q ∈ [(⟨"p", "P", none, none⟩ : PersonRecord),
         ⟨"c1", "C1", some "p", none⟩, ⟨"c2", "C2", some "p", none⟩], q.id ≠ "p" →
        ∃ r ∈ store2, r.id = q.id ∧ r.name = q.name ∧
          (q.parentId = some "p" → r.parentId = none)) :=
  claim5_delete_shape
    [⟨"p", "P", none, none⟩, ⟨"c1", "C1", some "p", none⟩, ⟨"c2", "C2", some "p", none⟩]
    "p" ⟨"p", "P", none, none⟩ rfl

/-! ## Claim C3: spouse symmetry under the Mutation Engine -/

theorem findRecord_append (s t : Store) (id : String) :
    findRecord (s ++ t) id = (findRecord s id).or (findRecord t id) :=
  List.find?_append

theorem findRecord_map_of_id {store : Store} {f : PersonRecord → PersonRecord} {id : String}
    (hf : ∀ q, (f q).id = q.id) :
    findRecord (store.map f) id = (findRecord store id).map f := by
  have hcomp : ((fun r : PersonRecord => decide (r.id = id)) ∘ f) =
      fun q : PersonRecord => decide (q.id = id) := by
    funext q
    simp [Function.comp, hf]
  rw [findRecord, findRecord, List.find?_map, hcomp]

/-- The store produced by `addPerson … Spouse`: the anchor rows get
`spouseId := newId`, and the new row is appended as a spouse-sentinel record
pointing back at the anchor. -/
theorem addSpouse_shape (store : Store) (newId newName anchorId : String)
    (hfresh : ∀ q ∈ store, q.id ≠ newId) (hne : newId ≠ anchorId) :
    addPerson store newId newName .Spouse anchorId =
      (store.map (fun q => if q.id = anchorId then { q with spouseId := some newId } else q))
        ++ [⟨newId, newName, some spouseSentinel, some anchorId⟩] := by
  simp only [addPerson, setParent, setSpouse, List.map_append, List.map_cons, List.map_nil]
  have h1 : store.map
      (fun q => if q.id = newId then { q with parentId := some spouseSentinel } else q)
      = store := map_eq_self_of_mem fun q hq => by rw [if_neg (hfresh q hq)]
  rw [h1]
  have h2 : (store.map
      (fun q => if q.id = anchorId then { q with spouseId := some newId } else q)).map
      (fun q => if q.id = newId then { q with spouseId := some anchorId } else q)
      = store.map (fun q => if q.id = anchorId then { q with spouseId := some newId } else q) := by
    apply map_eq_self_of_mem
    intro q hq
    obtain ⟨r, hr, rfl⟩ := List.mem_map.mp hq
    rw [if_neg]
    rw [spouseFn_id]
    exact hfresh r hr
  rw [h2]
  simp [hne]

/-- Claim C3 as stated is false: on the symmetric store `{A ↔ C}`, adding B
as a spouse of A rewires A to B and B to A but leaves C's `spouseId` pointing
at A, so the spouse-creating operation does not preserve symmetry. -/
theorem claim3_counterexample :
    SpouseSym [(⟨"a", "A", none, some "c"⟩ : PersonRecord), ⟨"c", "C", none, some "a"⟩] ∧
    ¬ SpouseSym (addPerson
        [(⟨"a", "A", none, some "c"⟩ : PersonRecord), ⟨"c", "C", none, some "a"⟩]
        "b" "B" .Spouse "a") := by
  constructor
  · decide
  · decide

/-- Claim C3, amended: on a store with unique ids whose spouse links are
symmetric, the spouse unlink performed by `deletePerson` always yields a
symmetric store again; `addPerson` with relationship Spouse yields
`get(A).spouseId = B` and `get(B).spouseId = A`, and preserves symmetry
provided the anchor has no existing spouse link (otherwise the anchor's
former spouse is left pointing at the anchor and symmetry is broken, as the
counterexample shows) and the generated id is fresh. -/
theorem claim3_amended :
    ∀ store : Store,
      (store.map PersonRecord.id).Nodup → SpouseSym store →
      ((∀ personId store2, deletePerson store personId = some store2 → SpouseSym store2) ∧
       (∀ newId newName anchorId anchor,
          findRecord store anchorId = some anchor →
          anchor.spouseId = none →
          memId store newId = false →
          (∀ q ∈ store, q.spouseId ≠ some newId) →
          (SpouseSym (addPerson store newId newName .Spouse anchorId) ∧
           findRecord (addPerson store newId newName .Spouse anchorId) newId =
             some ⟨newId, newName, some spouseSentinel, some anchorId⟩ ∧
           ∃ a2, findRecord (addPerson store newId newName .Spouse anchorId) anchorId =
             some a2 ∧ a2.spouseId = some newId))) := by
  intro store hnodup hsym
  constructor
  · -- deletePerson preserves symmetry
    intro personId store2 hdel
    rcases hfind : findRecord store personId with _ | person
    · rw [deletePerson, hfind] at hdel
      exact absurd hdel (by simp)
    · rw [deletePerson, hfind] at hdel
      have hstore2 : store2 = orphanChildren
          ((match person.spouseId with
            | some sid => setSpouse store sid none
            | none => store).filter (fun q => q.id ≠ personId)) personId := by
        exact (Option.some.injEq _ _ ▸ hdel).symm
      subst hstore2
      intro p hp q hq hpq
      obtain ⟨rp, hrp, rfl⟩ := List.mem_map.mp hp
      obtain ⟨rq, hrq, rfl⟩ := List.mem_map.mp hq
      rw [orphanFn_spouseId] at hpq
      rw [orphanFn_id] at hpq
      rw [orphanFn_spouseId, orphanFn_id]
      have hrpne : rp.id ≠ personId := by simpa using (List.mem_filter.mp hrp).2
      have hrp1 := (List.mem_filter.mp hrp).1
      have hrq1 := (List.mem_filter.mp hrq).1
      cases hsid : person.spouseId with
      | none =>
          rw [hsid] at hrp1 hrq1
          exact hsym rp hrp1 rq hrq1 hpq
      | some sid =>
          rw [hsid] at hrp1 hrq1
          obtain ⟨p0, hp0, rfl⟩ := List.mem_map.mp hrp1
          obtain ⟨q0, hq0, rfl⟩ := List.mem_map.mp hrq1
          rw [spouseFn_id] at hpq hrpne ⊢
          by_cases hpa : p0.id = sid
          · rw [if_pos hpa] at hpq
            simp at hpq
          · rw [if_neg hpa] at hpq
            have hq0sp : q0.spouseId = some p0.id := hsym p0 hp0 q0 hq0 hpq
            by_cases hqa : q0.id = sid
            · exfalso
              have hperson : person ∈ store := findRecord_mem hfind
              have hpid : person.id = personId := findRecord_id hfind
              have : q0.spouseId = some person.id := by
                apply hsym person hperson q0 hq0
                rw [hsid, ← hqa]
              rw [hq0sp] at this
              apply hrpne
              rw [Option.some.injEq] at this
              rw [this, hpid]
            · rw [if_neg hqa]
              exact hq0sp
  · -- addPerson with relationship Spouse
    intro newId newName anchorId anchor hfind hanchsp hfresh hnostale
    have hfreshm : ∀ q ∈ store, q.id ≠ newId := not_memId_iff.mp hfresh
    have hanchor : anchor ∈ store := findRecord_mem hfind
    have hanchorid : anchor.id = anchorId := findRecord_id hfind
    have hne : newId ≠ anchorId := by
      intro h
      exact hfreshm anchor hanchor (by rw [hanchorid, h])
    rw [addSpouse_shape store newId newName anchorId hfreshm hne]
    refine ⟨?_, ?_, ?_⟩
    · intro p hp q hq hpq
      rcases List.mem_append.mp hp with hp | hp
      · obtain ⟨p0, hp0, rfl⟩ := List.mem_map.mp hp
        by_cases hpa : p0.id = anchorId
        · rw [if_pos hpa] at hpq
          simp only at hpq
          have hqid : q.id = newId := by
            rw [Option.some.injEq] at hpq
            exact hpq.symm
          rcases List.mem_append.mp hq with hq | hq
          · exfalso
            obtain ⟨q0, hq0, rfl⟩ := List.mem_map.mp hq
            rw [spouseFn_id] at hqid
            exact hfreshm q0 hq0 hqid
          · have hqrec : q = ⟨newId, newName, some spouseSentinel, some anchorId⟩ := by
              simpa using hq
            rw [hqrec, if_pos hpa]
            simp [hpa]
        · rw [if_neg hpa] at hpq
          rcases List.mem_append.mp hq with hq | hq
          · obtain ⟨q0, hq0, rfl⟩ := List.mem_map.mp hq
            rw [spouseFn_id] at hpq
            have hq0sp : q0.spouseId = some p0.id := hsym p0 hp0 q0 hq0 hpq
            by_cases hqa : q0.id = anchorId
            · exfalso
              have : q0 = anchor := by
                apply List.inj_on_of_nodup_map hnodup hq0 hanchor
                rw [hqa, hanchorid]
              rw [this, hanchsp] at hq0sp
              exact Option.noConfusion hq0sp
            · rw [if_neg hqa, if_neg hpa, hq0sp]
          · exfalso
            have hqrec : q = ⟨newId, newName, some spouseSentinel, some anchorId⟩ := by
              simpa using hq
            rw [hqrec] at hpq
            exact hnostale p0 hp0 hpq
      · have hprec : p = ⟨newId, newName, some spouseSentinel, some anchorId⟩ := by
          simpa using hp
        subst hprec
        simp only at hpq
        have hqid : q.id = anchorId := by
          rw [Option.some.injEq] at hpq
          exact hpq.symm
        rcases List.mem_append.mp hq with hq | hq
        · obtain ⟨q0, hq0, rfl⟩ := List.mem_map.mp hq
          rw [spouseFn_id] at hqid
          rw [if_pos hqid]
        · exfalso
          have hqrec : q = ⟨newId, newName, some spouseSentinel, some anchorId⟩ := by
            simpa using hq
          rw [hqrec] at hqid
          exact hne (by simpa using hqid)
    · rw [findRecord_append]
      have hleft : findRecord (store.map
          (fun q => if q.id = anchorId then { q with spouseId := some newId } else q)) newId
          = none := by
        apply findRecord_eq_none
        rw [not_memId_iff]
        intro q hq
        obtain ⟨r, hr, rfl⟩ := List.mem_map.mp hq
        rw [spouseFn_id]
        exact hfreshm r hr
      rw [hleft]
      simp [findRecord]
    · refine ⟨{ anchor with spouseId := some newId }, ?_, rfl⟩
      rw [findRecord_append]
      have hleft : findRecord (store.map
          (fun q => if q.id = anchorId then { q with spouseId := some newId } else q)) anchorId
          = some { anchor with spouseId := some newId } := by
        rw [findRecord_map_of_id (spouseFn_id anchorId (some newId)), hfind]
        simp [hanchorid]
      rw [hleft]
      rfl

/-- Claim C3 amended, closed instance. -/
theorem claim3_witness :
    (∀ personId store2,
      deletePerson [(⟨"a", "A", none, some "c"⟩ : PersonRecord), ⟨"c", "C", none, some "a"⟩]
        personId = some store2 → SpouseSym store2) ∧
    (SpouseSym (addPerson [(⟨"d", "D", none, none⟩ : PersonRecord)] "b" "B" .Spouse "d") ∧
     findRecord (addPerson [(⟨"d", "D", none, none⟩ : PersonRecord)] "b" "B" .Spouse "d") "b" =
       some ⟨"b", "B", some spouseSentinel, some "d"⟩ ∧
     ∃ a2, findRecord (addPerson [(⟨"d", "D", none, none⟩ : PersonRecord)] "b" "B" .Spouse "d")
       "d" = some a2 ∧ a2.spouseId = some "b") :=
  ⟨(claim3_amended [⟨"a", "A", none, some "c"⟩, ⟨"c", "C", none, some "a"⟩]
      (by decide) (by decide)).1,
   (claim3_amended [⟨"d", "D", none, none⟩] (by decide) (by decide)).2
      "b" "B" "d" ⟨"d", "D", none, none⟩ rfl rfl (by decide) (by decide)⟩

/-! ## Claim C1: largest-subtree root selection -/

theorem countNodes_pos (t : TreeNode) : 1 ≤ countNodes t := by
  cases t with
  | node r s cs => rw [countNodes]; exact Nat.le_add_right 1 _

/-- Behaviour of the running-maximum fold of `selectRoot`: either no element
beats the initial bound and the accumulator survives, or the fold returns the
first element that attains the overall maximum. -/
theorem foldl_pickMax {α : Type} (f : α → Nat) :
    ∀ (l : List α) (m : Nat) (o : Option α),
      (l.foldl (fun acc c => if f c > acc.1 then (f c, some c) else acc) (m, o) = (m, o) ∧
        ∀ x ∈ l, f x ≤ m) ∨
      (∃ l1 c l2, l = l1 ++ c :: l2 ∧
        l.foldl (fun acc c => if f c > acc.1 then (f c, some c) else acc) (m, o)
          = (f c, some c) ∧
        m < f c ∧ (∀ x ∈ l1, f x < f c) ∧ (∀ x ∈ l2, f x ≤ f c)) := by
  intro l
  induction l with
  | nil => intro m o; exact Or.inl ⟨rfl, by simp⟩
  | cons a t ih =>
      intro m o
      by_cases ha : f a > m
      · rw [List.foldl_cons, if_pos ha]
        rcases ih (f a) (some a) with ⟨heq, hall⟩ | ⟨l1, c, l2, hdec, heq, hlt, h1, h2⟩
        · refine Or.inr ⟨[], a, t, by simp, heq, ha, by simp, hall⟩
        · refine Or.inr ⟨a :: l1, c, l2, by simp [hdec], heq, lt_trans ha hlt, ?_, h2⟩
          intro x hx
          rcases List.mem_cons.mp hx with rfl | hx
          · exact hlt
          · exact h1 x hx
      · rw [List.foldl_cons, if_neg ha]
        push_neg at ha
        rcases ih m o with ⟨heq, hall⟩ | ⟨l1, c, l2, hdec, heq, hlt, h1, h2⟩
        · refine Or.inl ⟨heq, ?_⟩
          intro x hx
          rcases List.mem_cons.mp hx with rfl | hx
          · exact ha
          · exact hall x hx
        · refine Or.inr ⟨a :: l1, c, l2, by simp [hdec], heq, hlt, ?_, h2⟩
          intro x hx
          rcases List.mem_cons.mp hx with rfl | hx
          · exact lt_of_le_of_lt ha hlt
          · exact h1 x hx

/-- Claim C1: with no explicit root and more than one root candidate,
reconstruction returns the candidate whose descendant subtree has the largest
`countNodes` count, ties resolved in favour of the first candidate in
enumeration order (every earlier candidate counts strictly fewer nodes, every
later one at most as many). -/
theorem claim1_largest_root :
    ∀ store : Store, (store.map PersonRecord.id).Nodup →
      2 ≤ (rootCandidates store).length →
      ∃ c, getFamilyTree store none = .ok (buildNode store store.length c) ∧
        c ∈ rootCandidates store ∧
        (∀ d ∈ rootCandidates store,
          countNodes (buildNode store store.length d) ≤
            countNodes (buildNode store store.length c)) ∧
        ∃ l1 l2, rootCandidates store = l1 ++ c :: l2 ∧
          (∀ d ∈ l1, countNodes (buildNode store store.length d) <
            countNodes (buildNode store store.length c)) ∧
          (∀ d ∈ l2, countNodes (buildNode store store.length d) ≤
            countNodes (buildNode store store.length c)) := by
  intro store _ hlen
  obtain ⟨c1, c2, rest, hcand⟩ : ∃ c1 c2 rest, rootCandidates store = c1 :: c2 :: rest := by
    rcases h : rootCandidates store with _ | ⟨c1, _ | ⟨c2, rest⟩⟩
    · rw [h] at hlen
      exact absurd hlen (by simp)
    · rw [h] at hlen
      exact absurd hlen (by simp)
    · exact ⟨c1, c2, rest, rfl⟩
  have hne : store ≠ [] := by
    intro h
    rw [h] at hcand
    exact absurd hcand (by simp [rootCandidates])
  rcases foldl_pickMax (fun c => countNodes (buildNode store store.length c))
      (c1 :: c2 :: rest) 0 none with ⟨_, hall⟩ | ⟨l1, c, l2, hdec, heq, _, h1, h2⟩
  · exact absurd (Nat.le_zero.mp (hall c1 (by simp)))
      (Nat.pos_iff_ne_zero.mp (countNodes_pos (buildNode store store.length c1)))
  · refine ⟨c, ?_, ?_, ?_, l1, l2, by rw [hcand, hdec], h1, h2⟩
    · rw [getFamilyTree]
      rw [if_neg (by simpa using hne)]
      have hsel : selectRoot store = some c := by
        rw [selectRoot, hcand]
        exact congrArg Prod.snd heq
      rw [hsel]
    · rw [hcand, hdec]
      simp
    · intro d hd
      rw [hcand, hdec] at hd
      rcases List.mem_append.mp hd with hd | hd
      · exact le_of_lt (h1 d hd)
      · rcases List.mem_cons.mp hd with rfl | hd
        · exact le_refl _
        · exact h2 d hd

/-- Claim C1, closed instance: two disjoint subtrees of sizes 1 and 2; the
size-2 root is chosen even though it is the second candidate. -/
theorem claim1_witness :
    ∃ c, getFamilyTree
        [(⟨"r1", "R1", none, none⟩ : PersonRecord), ⟨"r2", "R2", none, none⟩,
         ⟨"k", "K", some "r2", none⟩] none =
        .ok (buildNode
          [(⟨"r1", "R1", none, none⟩ : PersonRecord), ⟨"r2", "R2", none, none⟩,
           ⟨"k", "K", some "r2", none⟩] 3 c) ∧
      c ∈ rootCandidates
        [(⟨"r1", "R1", none, none⟩ : PersonRecord), ⟨"r2", "R2", none, none⟩,
         ⟨"k", "K", some "r2", none⟩] ∧
      (∀ d ∈ rootCandidates
        [(⟨"r1", "R1", none, none⟩ : PersonRecord), ⟨"r2", "R2", none, none⟩,
         ⟨"k", "K", some "r2", none⟩],
        countNodes (buildNode
          [(⟨"r1", "R1", none, none⟩ : PersonRecord), ⟨"r2", "R2", none, none⟩,
           ⟨"k", "K", some "r2", none⟩] 3 d) ≤
          countNodes (buildNode
            [(⟨"r1", "R1", none, none⟩ : PersonRecord), ⟨"r2", "R2", none, none⟩,
             ⟨"k", "K", some "r2", none⟩] 3 c)) ∧
      ∃ l1 l2, rootCandidates
          [(⟨"r1", "R1", none, none⟩ : PersonRecord), ⟨"r2", "R2", none, none⟩,
           ⟨"k", "K", some "r2", none⟩] = l1 ++ c :: l2 ∧
        (∀ d ∈ l1, countNodes (buildNode
          [(⟨"r1", "R1", none, none⟩ : PersonRecord), ⟨"r2", "R2", none, none⟩,
           ⟨"k", "K", some "r2", none⟩] 3 d) <
          countNodes (buildNode
            [(⟨"r1", "R1", none, none⟩ : PersonRecord), ⟨"r2", "R2", none, none⟩,
             ⟨"k", "K", some "r2", none⟩] 3 c)) ∧
        (∀ d ∈ l2, countNodes (buildNode
          [(⟨"r1", "R1", none, none⟩ : PersonRecord), ⟨"r2", "R2", none, none⟩,
           ⟨"k", "K", some "r2", none⟩] 3 d) ≤
          countNodes (buildNode
            [(⟨"r1", "R1", none, none⟩ : PersonRecord), ⟨"r2", "R2", none, none⟩,
             ⟨"k", "K", some "r2", none⟩] 3 c)) :=
  claim1_largest_root
    [⟨"r1", "R1", none, none⟩, ⟨"r2", "R2", none, none⟩, ⟨"k", "K", some "r2", none⟩]
    (by decide) (by decide)

/-! ## Claim C9: add-child round-trip through tree reconstruction -/

theorem addChild_shape (store : Store) (newId newName anchorId : String)
    (hfresh : ∀ q ∈ store, q.id ≠ newId) :
    addPerson store newId newName .Child anchorId =
      store ++ [⟨newId, newName, some anchorId, none⟩] := by
  simp only [addPerson, setParent, List.map_append, List.map_cons, List.map_nil]
  rw [map_eq_self_of_mem (fun q hq => by rw [if_neg (hfresh q hq)])]
  simp

theorem record_buildNode (store : Store) (fuel : Nat) (p : PersonRecord) :
    (buildNode store fuel p).record = p := by
  cases fuel <;> rfl

/-- Claim C9 as stated is false when the anchor's id is the literal sentinel
string: a child added relative to a record whose id is `"SPOUSE"` receives
`parentId = "SPOUSE"`, which the reconstructor treats as the spouse sentinel,
so the fetched tree rooted at the anchor has an empty children list. -/
theorem claim9_counterexample :
    (getFamilyTree
      (addPerson [(⟨"SPOUSE", "Anchor", none, none⟩ : PersonRecord)] "p1" "Kid"
        .Child "SPOUSE") (some "SPOUSE")).map TreeNode.children = .ok [] := rfl

/-- Claim C9, amended: for every existing anchor whose id is not the literal
sentinel string `"SPOUSE"`, adding a Child relative to the anchor and then
fetching the tree rooted at the anchor shows the new person in the root's
children. -/
theorem claim9_amended :
    ∀ (store : Store) (anchorId newId newName : String) (anchor : PersonRecord),
      (store.map PersonRecord.id).Nodup →
      findRecord store anchorId = some anchor →
      anchorId ≠ spouseSentinel →
      memId store newId = false →
      ∃ t, getFamilyTree (addPerson store newId newName .Child anchorId) (some anchorId)
          = .ok t ∧
        ∃ c ∈ t.children, c.record = ⟨newId, newName, some anchorId, none⟩ := by
  intro store anchorId newId newName anchor _ hfind hsent hfresh
  have hfreshm := not_memId_iff.mp hfresh
  rw [addChild_shape store newId newName anchorId hfreshm]
  have hfind2 : findRecord (store ++ [⟨newId, newName, some anchorId, none⟩]) anchorId
      = some anchor := by
    rw [findRecord_append, hfind]
    rfl
  have hne : ¬((store ++ [(⟨newId, newName, some anchorId, none⟩ : PersonRecord)]).isEmpty
      = true) := by
    simp
  rw [getFamilyTree, if_neg hne, hfind2]
  refine ⟨_, rfl, ?_⟩
  have hanchorid : anchor.id = anchorId := findRecord_id hfind
  have hmemc : (⟨newId, newName, some anchorId, none⟩ : PersonRecord)
      ∈ childRecords (store ++ [⟨newId, newName, some anchorId, none⟩]) anchor.id := by
    rw [childRecords]
    apply List.mem_filter.mpr
    refine ⟨by simp, ?_⟩
    simp only [decide_eq_true_eq]
    exact ⟨by rw [hanchorid], by simpa [hanchorid] using hsent⟩
  have hlen : (store ++ [(⟨newId, newName, some anchorId, none⟩ : PersonRecord)]).length
      = store.length + 1 := by
    simp
  rw [hlen, buildNode]
  exact ⟨_, List.mem_map.mpr ⟨_, hmemc, rfl⟩, record_buildNode _ _ _⟩

/-- Claim C9 amended, closed instance. -/
theorem claim9_witness :
    ∃ t, getFamilyTree (addPerson [(⟨"a", "A", none, none⟩ : PersonRecord)] "n" "N"
        .Child "a") (some "a") = .ok t ∧
      ∃ c ∈ t.children, c.record = ⟨"n", "N", some "a", none⟩ :=
  claim9_amended [⟨"a", "A", none, none⟩] "a" "n" "N" ⟨"a", "A", none, none⟩
    (by decide) rfl (by decide) (by decide)

/-! ## Adjacency structure characterization -/

theorem mem_pushNeighbor {m : String → List String} {k v x y : String} :
    y ∈ pushNeighbor m k v x ↔ y ∈ m x ∨ (x = k ∧ y = v) := by
  rw [pushNeighbor]
  by_cases h : x = k <;> simp [h]

theorem mem_adjStep {adj : String → List String} {person : PersonRecord} {a b : String} :
    b ∈ adjStep adj person a ↔ b ∈ adj a ∨ AdjContribP person a b := by
  rw [adjStep, AdjContribP]
  rcases hp : person.parentId with _ | pid <;> rcases hs : person.spouseId with _ | sid
  · simp
  · simp [mem_pushNeighbor, or_assoc]
  · by_cases hsent : pid = spouseSentinel
    · simp [hsent, mem_pushNeighbor]
    · simp [hsent, mem_pushNeighbor, or_assoc]
  · by_cases hsent : pid = spouseSentinel
    · simp [hsent, mem_pushNeighbor, or_assoc]
    · simp [hsent, mem_pushNeighbor, or_assoc]

theorem mem_foldAdj :
    ∀ (l : List PersonRecord) (init : String → List String) (a b : String),
      b ∈ l.foldl adjStep init a ↔ b ∈ init a ∨ ∃ r ∈ l, AdjContribP r a b := by
  intro l
  induction l with
  | nil => intro init a b; simp
  | cons r t ih =>
      intro init a b
      rw [List.foldl_cons, ih, mem_adjStep]
      simp only [List.mem_cons]
      constructor
      · rintro ((h | h) | ⟨r2, hr2, h⟩)
        · exact Or.inl h
        · exact Or.inr ⟨r, Or.inl rfl, h⟩
        · exact Or.inr ⟨r2, Or.inr hr2, h⟩
      · rintro (h | ⟨r2, (rfl | hr2), h⟩)
        · exact Or.inl (Or.inl h)
        · exact Or.inl (Or.inr h)
        · exact Or.inr ⟨r2, hr2, h⟩

theorem mem_buildAdj {store : Store} {a b : String} :
    b ∈ buildAdj store a ↔ ∃ r ∈ store, AdjContribP r a b := by
  rw [buildAdj, mem_foldAdj]
  simp

theorem mem_mentions_of_buildAdj {store : Store} {a b : String}
    (h : b ∈ buildAdj store a) : b ∈ mentions store := by
  rw [mem_buildAdj] at h
  obtain ⟨r, hr, hc⟩ := h
  rw [mentions]
  rw [List.mem_flatMap]
  refine ⟨r, hr, ?_⟩
  rcases hc with ⟨pid, hpid, _, hab⟩ | ⟨sid, hsid, hab⟩
  · rcases hab with ⟨_, rfl⟩ | ⟨_, rfl⟩ <;> simp [hpid]
  · rcases hab with ⟨_, rfl⟩ | ⟨_, rfl⟩ <;> simp [hsid]

theorem noDangling_spec {store : Store} (h : noDangling store = true) :
    ∀ r ∈ store,
      (∀ pid, r.parentId = some pid → pid ≠ spouseSentinel → memId store pid = true) ∧
      (∀ sid, r.spouseId = some sid → memId store sid = true) := by
  intro r hr
  rw [noDangling, List.all_eq_true] at h
  have hrr := h r hr
  rw [Bool.and_eq_true] at hrr
  constructor
  · intro pid hpid hsent
    have h1 := hrr.1
    rw [hpid] at h1
    simp only [Bool.or_eq_true, decide_eq_true_eq] at h1
    rcases h1 with h1 | h1
    · exact absurd h1 hsent
    · exact h1
  · intro sid hsid
    have h2 := hrr.2
    rw [hsid] at h2
    exact h2

theorem memId_of_mem_buildAdj {store : Store} {a b : String}
    (hnd : noDangling store = true) (h : b ∈ buildAdj store a) : memId store b = true := by
  rw [mem_buildAdj] at h
  obtain ⟨r, hr, hc⟩ := h
  rcases hc with ⟨pid, hpid, hsent, hab⟩ | ⟨sid, hsid, hab⟩
  · rcases hab with ⟨_, rfl⟩ | ⟨_, rfl⟩
    · exact (noDangling_spec hnd r hr).1 _ hpid hsent
    · rw [memId, List.any_eq_true]
      exact ⟨r, hr, by simp⟩
  · rcases hab with ⟨_, rfl⟩ | ⟨_, rfl⟩
    · exact (noDangling_spec hnd r hr).2 _ hsid
    · rw [memId, List.any_eq_true]
      exact ⟨r, hr, by simp⟩

theorem hasEdge_iff_mem_buildAdj {store : Store} {a b : String}
    (hnd : noDangling store = true) :
    hasEdge store a b = true ↔ b ∈ buildAdj store a := by
  rw [hasEdge, List.any_eq_true, mem_buildAdj]
  constructor
  · rintro ⟨r, hr, hdec⟩
    rw [decide_eq_true_eq] at hdec
    refine ⟨r, hr, ?_⟩
    rcases hdec with ⟨hid, ⟨hp, hbs, _⟩ | ⟨hs, _⟩⟩ | ⟨hid, ⟨hp, hbs, _⟩ | ⟨hs, _⟩⟩
    · exact Or.inl ⟨b, hp, hbs, Or.inl ⟨hid.symm, rfl⟩⟩
    · exact Or.inr ⟨b, hs, Or.inl ⟨hid.symm, rfl⟩⟩
    · exact Or.inl ⟨a, hp, hbs, Or.inr ⟨rfl, hid.symm⟩⟩
    · exact Or.inr ⟨a, hs, Or.inr ⟨rfl, hid.symm⟩⟩
  · rintro ⟨r, hr, hc⟩
    refine ⟨r, hr, ?_⟩
    rw [decide_eq_true_eq]
    rcases hc with ⟨pid, hpid, hsent, hab⟩ | ⟨sid, hsid, hab⟩
    · rcases hab with ⟨ha, hb⟩ | ⟨ha, hb⟩
      · exact Or.inl ⟨ha.symm, Or.inl ⟨hb ▸ hpid, hb ▸ hsent,
          hb ▸ (noDangling_spec hnd r hr).1 pid hpid hsent⟩⟩
      · refine Or.inr ⟨hb.symm, Or.inl ⟨ha ▸ hpid, ha ▸ hsent, ?_⟩⟩
        rw [ha]
        exact (noDangling_spec hnd r hr).1 pid hpid hsent
    · rcases hab with ⟨ha, hb⟩ | ⟨ha, hb⟩
      · exact Or.inl ⟨ha.symm, Or.inr ⟨hb ▸ hsid,
          hb ▸ (noDangling_spec hnd r hr).2 sid hsid⟩⟩
      · refine Or.inr ⟨hb.symm, Or.inr ⟨ha ▸ hsid, ?_⟩⟩
        rw [ha]
        exact (noDangling_spec hnd r hr).2 sid hsid

theorem edgeChain_iff_adjChain {store : Store} (hnd : noDangling store = true) :
    ∀ l : List String, edgeChain store l ↔ adjChain (buildAdj store) l := by
  intro l
  induction l with
  | nil => simp [edgeChain, adjChain]
  | cons x t ih =>
      cases t with
      | nil => simp [edgeChain, adjChain]
      | cons y rest =>
          rw [edgeChain, adjChain, ← hasEdge_iff_mem_buildAdj hnd]
          exact and_congr Iff.rfl ih

/-! ## List and chain helpers for the BFS proofs -/

theorem getLast?_of_ne_nil {l : List String} (h : l ≠ []) :
    l.getLast? = some (l.getLastD "") := by
  rcases hl : l.getLast? with _ | x
  · exact absurd (List.getLast?_eq_none_iff.mp hl) h
  · rw [List.getLastD_eq_getLast?, hl]
    rfl

theorem head?_append_singleton {l : List String} (h : l ≠ []) (x : String) :
    (l ++ [x]).head? = l.head? := by
  cases l with
  | nil => exact absurd rfl h
  | cons a t => rfl

theorem getLastD_append_singleton (l : List String) (x : String) :
    (l ++ [x]).getLastD "" = x := by
  rw [List.getLastD_eq_getLast?, List.getLast?_concat]
  rfl

theorem getLastD_cons_cons (a b : String) (r : List String) :
    (a :: b :: r).getLastD "" = (b :: r).getLastD "" := by
  rw [List.getLastD_eq_getLast?, List.getLastD_eq_getLast?, List.getLast?_cons_cons]

theorem adjChain_concat (adj : String → List String) :
    ∀ l : List String, l ≠ [] → adjChain adj l →
      ∀ nb, nb ∈ adj (l.getLastD "") → adjChain adj (l ++ [nb]) := by
  intro l
  induction l with
  | nil => intro h; exact absurd rfl h
  | cons a t ih =>
      intro _ hchain nb hnb
      cases t with
      | nil =>
          simp only [List.cons_append, List.nil_append, adjChain, and_true]
          simpa using hnb
      | cons b r =>
          simp only [adjChain] at hchain
          simp only [List.cons_append, adjChain]
          refine ⟨hchain.1, ?_⟩
          have hnb2 : nb ∈ adj ((b :: r).getLastD "") := by
            rw [← getLastD_cons_cons a]
            exact hnb
          simpa using ih (by simp) hchain.2 nb hnb2

theorem adjChain_front (adj : String → List String) :
    ∀ (l1 : List String) (w : String) (l2 : List String),
      adjChain adj (l1 ++ w :: l2) → adjChain adj (l1 ++ [w]) := by
  intro l1
  induction l1 with
  | nil => intro w l2 _; simp [adjChain]
  | cons a t ih =>
      intro w l2 h
      cases t with
      | nil =>
          simp only [List.cons_append, List.nil_append, adjChain] at h ⊢
          exact ⟨h.1, trivial⟩
      | cons b t2 =>
          simp only [List.cons_append, adjChain] at h ⊢
          exact ⟨h.1, ih w l2 h.2⟩

theorem chain_closed_subset (adj : String → List String) (V : List String)
    (hcl : ∀ v ∈ V, ∀ w ∈ adj v, w ∈ V) :
    ∀ l : List String, adjChain adj l → ∀ s, l.head? = some s → s ∈ V →
      ∀ x ∈ l, x ∈ V := by
  intro l
  induction l with
  | nil => intro _ s h; simp at h
  | cons a t ih =>
      intro hchain s hhead hs x hx
      have ha : a ∈ V := by
        injection hhead with h
        rw [← h] at hs
        exact hs
      rcases List.mem_cons.mp hx with rfl | hx
      · exact ha
      · cases t with
        | nil => simp at hx
        | cons b r =>
            simp only [adjChain] at hchain
            exact ih hchain.2 b rfl (hcl a ha b hchain.1) x hx

theorem split_last_mem (V : List String) :
    ∀ l : List String, (∃ x ∈ l, x ∈ V) →
      ∃ l1 w l2, l = l1 ++ w :: l2 ∧ w ∈ V ∧ ∀ x ∈ l2, x ∉ V := by
  intro l
  induction l using List.reverseRecOn with
  | nil => rintro ⟨x, hx, _⟩; simp at hx
  | append_singleton t a ih =>
      rintro ⟨x, hx, hxV⟩
      by_cases ha : a ∈ V
      · exact ⟨t, a, [], rfl, ha, by simp⟩
      · have hx2 : x ∈ t := by
          rcases List.mem_append.mp hx with h | h
          · exact h
          · simp only [List.mem_singleton] at h
            subst h
            exact absurd hxV ha
        obtain ⟨l1, w, l2, hdec, hw, hl2⟩ := ih ⟨x, hx2, hxV⟩
        refine ⟨l1, w, l2 ++ [a], by rw [hdec]; simp, hw, ?_⟩
        intro y hy
        rcases List.mem_append.mp hy with h | h
        · exact hl2 y h
        · simp only [List.mem_singleton] at h
          subst h
          exact ha

/-! ## The BFS neighbour loop -/

theorem enqueue_fold (path : List String) :
    ∀ (nbs : List String) (q : List (List String)) (vis : List String),
      ∃ nw : List String,
        nbs.foldl (enqueueStep path) (q, vis) =
          (q ++ nw.map (fun nb => path ++ [nb]), nw.reverse ++ vis) ∧
        nw.Nodup ∧ (∀ x ∈ nw, x ∈ nbs ∧ x ∉ vis) ∧
        (∀ x ∈ nbs, x ∈ nw.reverse ++ vis) := by
  intro nbs
  induction nbs with
  | nil => intro q vis; exact ⟨[], by simp, by simp, by simp, by simp⟩
  | cons nb t ih =>
      intro q vis
      rw [List.foldl_cons]
      by_cases h : nb ∈ vis
      · have hstep : enqueueStep path (q, vis) nb = (q, vis) := by
          simp [enqueueStep, h]
        rw [hstep]
        obtain ⟨nw, heq, hnd, hmem, hall⟩ := ih q vis
        refine ⟨nw, heq, hnd,
          fun x hx => ⟨List.mem_cons_of_mem _ (hmem x hx).1, (hmem x hx).2⟩, ?_⟩
        intro x hx
        rcases List.mem_cons.mp hx with rfl | hx
        · exact List.mem_append_right _ h
        · exact hall x hx
      · have hstep : enqueueStep path (q, vis) nb = (q ++ [path ++ [nb]], nb :: vis) := by
          simp [enqueueStep, h]
        rw [hstep]
        obtain ⟨nw, heq, hnd, hmem, hall⟩ := ih (q ++ [path ++ [nb]]) (nb :: vis)
        refine ⟨nb :: nw, ?_, ?_, ?_, ?_⟩
        · rw [heq, Prod.mk.injEq]
          constructor
          · simp
          · simp
        · rw [List.nodup_cons]
          exact ⟨fun h2 => (hmem nb h2).2 (List.mem_cons_self _ _), hnd⟩
        · intro x hx
          rcases List.mem_cons.mp hx with rfl | hx
          · exact ⟨List.mem_cons_self _ _, h⟩
          · refine ⟨List.mem_cons_of_mem _ (hmem x hx).1, fun h2 => (hmem x hx).2 ?_⟩
            exact List.mem_cons_of_mem _ h2
        · intro x hx
          rcases List.mem_cons.mp hx with rfl | hx
          · simp
          · have := hall x hx
            simp only [List.mem_append, List.mem_reverse, List.mem_cons] at this ⊢
            tauto

theorem queueInv_step {adj : String → List String} {s : String} {visited : List String}
    {path : List String} {rest : List (List String)}
    (hinv : QueueInv adj s visited (path :: rest)) :
    QueueInv adj s
      (((adj (path.getLastD "")).foldl (enqueueStep path) (rest, visited)).2)
      (((adj (path.getLastD "")).foldl (enqueueStep path) (rest, visited)).1) := by
  obtain ⟨nw, heq, hnd, hmem, hall⟩ :=
    enqueue_fold path (adj (path.getLastD "")) rest visited
  rw [heq]
  intro p hp
  rcases List.mem_append.mp hp with hp | hp
  · obtain ⟨hne, hhead, hnodup, hvis, hchain⟩ := hinv p (List.mem_cons_of_mem _ hp)
    exact ⟨hne, hhead, hnodup, fun x hx => List.mem_append_right _ (hvis x hx), hchain⟩
  · obtain ⟨nb, hnb, rfl⟩ := List.mem_map.mp hp
    obtain ⟨hne, hhead, hnodup, hvis, hchain⟩ := hinv path (List.mem_cons_self _ _)
    have hnbp := hmem nb hnb
    refine ⟨by simp, ?_, ?_, ?_, ?_⟩
    · rw [head?_append_singleton hne]
      exact hhead
    · rw [List.nodup_append]
      refine ⟨hnodup, List.nodup_singleton _, ?_⟩
      intro x hx
      simp only [List.mem_singleton]
      intro hxnb
      subst hxnb
      exact hnbp.2 (hvis x hx)
    · intro x hx
      rcases List.mem_append.mp hx with hx | hx
      · exact List.mem_append_right _ (hvis x hx)
      · simp only [List.mem_singleton] at hx
        subst hx
        exact List.mem_append_left _ (List.mem_reverse.mpr hnb)
    · exact adjChain_concat adj path hne hchain nb hnbp.1

/-- Soundness of the BFS loop: any returned path is a duplicate-free
adjacency path from the start node ending at `endId`. -/
theorem bfsAux_sound (adj : String → List String) (s endId : String) :
    ∀ (fuel : Nat) (queue : List (List String)) (visited : List String),
      QueueInv adj s visited queue →
      ∀ res, bfsAux adj endId fuel queue visited = some res →
        res ≠ [] ∧ res.head? = some s ∧ res.Nodup ∧ adjChain adj res ∧
          res.getLast? = some endId := by
  intro fuel
  induction fuel with
  | zero =>
      intro queue visited _ res h
      rw [bfsAux] at h
      exact Option.noConfusion h
  | succ fuel ih =>
      intro queue visited hinv res hres
      rcases queue with _ | ⟨path, rest⟩
      · rw [bfsAux] at hres
        exact Option.noConfusion hres
      · rw [bfsAux] at hres
        by_cases hend : path.getLastD "" = endId
        · rw [if_pos hend] at hres
          injection hres with hres
          subst hres
          obtain ⟨hne, hhead, hnodup, _, hchain⟩ := hinv path (List.mem_cons_self _ _)
          refine ⟨hne, hhead, hnodup, hchain, ?_⟩
          rw [getLast?_of_ne_nil hne, hend]
        · rw [if_neg hend] at hres
          exact ih _ _ (queueInv_step hinv) res hres

/-! ## Path reconstruction lemmas -/

theorem findRecord_isSome {store : Store} {x : String} (h : memId store x = true) :
    ∃ p, findRecord store x = some p := by
  rcases hf : findRecord store x with _ | p
  · exfalso
    rw [findRecord, List.find?_eq_none] at hf
    rw [memId, List.any_eq_true] at h
    obtain ⟨p, hp, hpid⟩ := h
    exact hf p hp hpid
  · exact ⟨p, rfl⟩

theorem reconstructTail_spec (store : Store) :
    ∀ (l : List String) (prevId : String) (segs : List PathSegment),
      reconstructTail store prevId l = some segs →
      segs.map (fun sg => sg.personId) = l ∧ TagChain store prevId segs := by
  intro l
  induction l with
  | nil =>
      intro prevId segs h
      rw [reconstructTail] at h
      injection h with h
      rw [← h]
      exact ⟨rfl, trivial⟩
  | cons c rest ih =>
      intro prevId segs h
      rw [reconstructTail] at h
      rcases hcur : findRecord store c with _ | cur
      · rw [hcur] at h
        exact Option.noConfusion h
      · rw [hcur] at h
        rcases hprev : findRecord store prevId with _ | prev
        · rw [hprev] at h
          exact Option.noConfusion h
        · rw [hprev] at h
          rcases htail : reconstructTail store c rest with _ | tail
          · rw [htail] at h
            exact Option.noConfusion h
          · rw [htail] at h
            have h2 := Option.some.inj h
            rw [← h2]
            obtain ⟨hids, htags⟩ := ih c tail htail
            exact ⟨by simp [hids], ⟨prev, hprev, rfl⟩, htags⟩

theorem reconstructPath_spec (store : Store) :
    ∀ (l : List String) (segs : List PathSegment),
      reconstructPath store l = some segs →
      segs.map (fun sg => sg.personId) = l ∧
      ((segs = [] ∧ l = []) ∨
        ∃ first tail, segs = first :: tail ∧ first.relationship = Rel.start ∧
          TagChain store first.personId tail) := by
  intro l segs h
  cases l with
  | nil =>
      rw [reconstructPath] at h
      injection h with h
      rw [← h]
      exact ⟨rfl, Or.inl ⟨rfl, rfl⟩⟩
  | cons c rest =>
      rw [reconstructPath] at h
      rcases hcur : findRecord store c with _ | cur
      · rw [hcur] at h
        exact Option.noConfusion h
      · rw [hcur] at h
        rcases htail : reconstructTail store c rest with _ | tail
        · rw [htail] at h
          exact Option.noConfusion h
        · rw [htail] at h
          have h2 := Option.some.inj h
          rw [← h2]
          obtain ⟨hids, htags⟩ := reconstructTail_spec store rest c tail htail
          exact ⟨by simp [hids], Or.inr ⟨_, tail, rfl, rfl, htags⟩⟩

theorem reconstructTail_exists (store : Store) :
    ∀ (l : List String) (prevId : String),
      (∀ x ∈ l, memId store x = true) → memId store prevId = true →
      ∃ segs, reconstructTail store prevId l = some segs := by
  intro l
  induction l with
  | nil => intro prevId _ _; exact ⟨[], rfl⟩
  | cons c rest ih =>
      intro prevId hl hprev
      obtain ⟨cur, hcur⟩ := findRecord_isSome (hl c (List.mem_cons_self _ _))
      obtain ⟨prev, hprevr⟩ := findRecord_isSome hprev
      obtain ⟨tail, htail⟩ := ih c (fun x hx => hl x (List.mem_cons_of_mem _ hx))
        (hl c (List.mem_cons_self _ _))
      refine ⟨⟨c, cur.name, classifyHop prev c⟩ :: tail, ?_⟩
      rw [reconstructTail, hcur, hprevr, htail]
      rfl

theorem reconstructPath_exists (store : Store) :
    ∀ l : List String, (∀ x ∈ l, memId store x = true) →
      ∃ segs, reconstructPath store l = some segs := by
  intro l hl
  cases l with
  | nil => exact ⟨[], rfl⟩
  | cons c rest =>
      obtain ⟨cur, hcur⟩ := findRecord_isSome (hl c (List.mem_cons_self _ _))
      obtain ⟨tail, htail⟩ := reconstructTail_exists store rest c
        (fun x hx => hl x (List.mem_cons_of_mem _ hx)) (hl c (List.mem_cons_self _ _))
      refine ⟨⟨c, cur.name, Rel.start⟩ :: tail, ?_⟩
      rw [reconstructPath, hcur, htail]
      rfl

theorem queueInv_init (adj : String → List String) (s : String) :
    QueueInv adj s [s] [[s]] := by
  intro p hp
  simp only [List.mem_singleton] at hp
  subst hp
  exact ⟨by simp, rfl, List.nodup_singleton _, by simp, trivial⟩

/-- Inversion of a successful `findRelationshipPath`: the BFS found a path
and its reconstruction produced the returned segments. -/
theorem findRelationshipPath_ok_inv {store : Store} {startId endId : String}
    {segs : List PathSegment}
    (h : findRelationshipPath store startId endId = .ok (some segs)) :
    ∃ path, bfsAux (buildAdj store) endId (2 * (mentions store).length + 2)
        [[startId]] [startId] = some path ∧ reconstructPath store path = some segs := by
  rw [findRelationshipPath] at h
  rcases hb : bfsAux (buildAdj store) endId (2 * (mentions store).length + 2)
      [[startId]] [startId] with _ | path
  · rw [hb] at h
    exact Option.noConfusion (Except.ok.inj h)
  · rw [hb] at h
    have h2 : (match reconstructPath store path with
      | some segs2 => (Except.ok (some segs2) : Except Unit (Option (List PathSegment)))
      | none => Except.error ()) = Except.ok (some segs) := h
    rcases hr : reconstructPath store path with _ | segs2
    · rw [hr] at h2
      exact Except.noConfusion h2
    · rw [hr] at h2
      have h3 : segs2 = segs := Option.some.inj (Except.ok.inj h2)
      exact ⟨path, rfl, h3 ▸ hr⟩

/-! ## Claim C10: non-null results are simple paths from start to end -/

/-- Claim C10: every non-null result of `findRelationshipPath` starts at
`startId`, ends at `endId`, and repeats no person id. -/
theorem claim10_simple_path :
    ∀ (store : Store) (startId endId : String) (segs : List PathSegment),
      findRelationshipPath store startId endId = .ok (some segs) →
      (segs.map fun sg => sg.personId).head? = some startId ∧
      (segs.map fun sg => sg.personId).getLast? = some endId ∧
      (segs.map fun sg => sg.personId).Nodup := by
  intro store startId endId segs h
  obtain ⟨path, hb, hr⟩ := findRelationshipPath_ok_inv h
  obtain ⟨hne, hhead, hnodup, _, hlast⟩ :=
    bfsAux_sound (buildAdj store) startId endId _ _ _
      (queueInv_init (buildAdj store) startId) path hb
  obtain ⟨hids, _⟩ := reconstructPath_spec store path segs hr
  rw [hids]
  exact ⟨hhead, hlast, hnodup⟩

/-- Claim C10, closed instance. -/
theorem claim10_witness :
    ((([⟨"a", "A", .start⟩, ⟨"b", "B", .child⟩, ⟨"c", "C", .spouse⟩] :
        List PathSegment).map fun sg => sg.personId).head? = some "a") ∧
    ((([⟨"a", "A", .start⟩, ⟨"b", "B", .child⟩, ⟨"c", "C", .spouse⟩] :
        List PathSegment).map fun sg => sg.personId).getLast? = some "c") ∧
    ((([⟨"a", "A", .start⟩, ⟨"b", "B", .child⟩, ⟨"c", "C", .spouse⟩] :
        List PathSegment).map fun sg => sg.personId).Nodup) :=
  claim10_simple_path
    [⟨"a", "A", none, none⟩, ⟨"b", "B", some "a", some "c"⟩,
     ⟨"c", "C", some "SPOUSE", some "b"⟩] "a" "c"
    [⟨"a", "A", .start⟩, ⟨"b", "B", .child⟩, ⟨"c", "C", .spouse⟩] rfl

/-! ## Claim C4: hop classification of reconstructed paths -/

/-- Claim C4: in every non-null result the first segment is tagged `start`
and carries `startId`, and each later segment is tagged by `classifyHop` of
the previous segment's record (`parent` when the previous record's parentId
names it, else `spouse` when its spouseId names it, else `child`); in the
concrete parent/spouse chain the result is `[start a, child b, spouse c]`. -/
theorem claim4_hop_tags :
    (∀ (store : Store) (startId endId : String) (segs : List PathSegment),
      findRelationshipPath store startId endId = .ok (some segs) →
      ∃ first tail, segs = first :: tail ∧ first.relationship = Rel.start ∧
        first.personId = startId ∧ TagChain store first.personId tail) ∧
    findRelationshipPath
      [(⟨"a", "A", none, none⟩ : PersonRecord), ⟨"b", "B", some "a", some "c"⟩,
       ⟨"c", "C", some "SPOUSE", some "b"⟩] "a" "c" =
      .ok (some [⟨"a", "A", .start⟩, ⟨"b", "B", .child⟩, ⟨"c", "C", .spouse⟩]) := by
  constructor
  · intro store startId endId segs h
    obtain ⟨path, hb, hr⟩ := findRelationshipPath_ok_inv h
    obtain ⟨hne, hhead, _, _, _⟩ :=
      bfsAux_sound (buildAdj store) startId endId _ _ _
        (queueInv_init (buildAdj store) startId) path hb
    obtain ⟨hids, htags⟩ := reconstructPath_spec store path segs hr
    rcases htags with ⟨rfl, rfl⟩ | ⟨first, tail, rfl, hstart, htags⟩
    · exact absurd rfl hne
    · refine ⟨first, tail, rfl, hstart, ?_, htags⟩
      rw [← hids] at hhead
      simp only [List.map_cons, List.head?_cons, Option.some.injEq] at hhead
      exact hhead
  · rfl

/-- Claim C4 general part, closed instance. -/
theorem claim4_witness :
    ∃ first tail,
      ([(⟨"a", "A", .start⟩ : PathSegment), ⟨"b", "B", .child⟩, ⟨"c", "C", .spouse⟩] =
        first :: tail) ∧ first.relationship = Rel.start ∧ first.personId = "a" ∧
      TagChain
        [(⟨"a", "A", none, none⟩ : PersonRecord), ⟨"b", "B", some "a", some "c"⟩,
         ⟨"c", "C", some "SPOUSE", some "b"⟩] first.personId tail :=
  claim4_hop_tags.1
    [⟨"a", "A", none, none⟩, ⟨"b", "B", some "a", some "c"⟩,
     ⟨"c", "C", some "SPOUSE", some "b"⟩] "a" "c"
    [⟨"a", "A", .start⟩, ⟨"b", "B", .child⟩, ⟨"c", "C", .spouse⟩] rfl

/-! ## Claim C6: multiplicity of spouse edges in the adjacency structure -/

theorem map_congr_mem {α β : Type} {l : List α} {f g : α → β}
    (h : ∀ x ∈ l, f x = g x) : l.map f = l.map g := by
  induction l with
  | nil => rfl
  | cons a t ih =>
      rw [List.map_cons, List.map_cons, h a (List.mem_cons_self _ _),
        ih fun x hx => h x (List.mem_cons_of_mem _ hx)]

theorem sum_map_add {α : Type} (f g : α → Nat) :
    ∀ l : List α, (l.map (fun r => f r + g r)).sum = (l.map f).sum + (l.map g).sum := by
  intro l
  induction l with
  | nil => rfl
  | cons a t ih =>
      simp only [List.map_cons, List.sum_cons, ih]
      omega

theorem sum_map_indicator {α : Type} [DecidableEq α] (A : α) :
    ∀ l : List α, (l.map (fun r => if r = A then 1 else 0)).sum = l.count A := by
  intro l
  induction l with
  | nil => rfl
  | cons a t ih =>
      rw [List.map_cons, List.sum_cons, ih, List.count_cons]
      by_cases h : a = A <;> simp [h]
      omega

theorem count_pushNeighbor (m : String → List String) (k v x y : String) :
    (pushNeighbor m k v x).count y = (m x).count y + (if x = k ∧ y = v then 1 else 0) := by
  rw [pushNeighbor]
  by_cases h : x = k
  · rw [if_pos h]
    by_cases hv : y = v <;> simp [h, hv, List.count_append]
  · rw [if_neg h]
    simp [h]

theorem count_adjStep (adj : String → List String) (person : PersonRecord) (a b : String) :
    (adjStep adj person a).count b = (adj a).count b + adjContrib person a b := by
  rw [adjStep, adjContrib]
  rcases hp : person.parentId with _ | pid <;> rcases hs : person.spouseId with _ | sid
  · simp
  · simp only [count_pushNeighbor]
    omega
  · by_cases hsent : pid = spouseSentinel
    · simp [hsent]
    · simp only [if_neg hsent, ne_eq, not_false_eq_true, if_true, count_pushNeighbor,
        hsent, if_false]
      omega
  · by_cases hsent : pid = spouseSentinel
    · simp only [hsent, ne_eq, not_true_eq_false, if_false, count_pushNeighbor]
      omega
    · simp only [ne_eq, hsent, not_false_eq_true, if_true, count_pushNeighbor]
      omega

theorem count_foldAdj :
    ∀ (l : List PersonRecord) (init : String → List String) (a b : String),
      ((l.foldl adjStep init) a).count b =
        (init a).count b + (l.map (fun r => adjContrib r a b)).sum := by
  intro l
  induction l with
  | nil => intro init a b; simp
  | cons r t ih =>
      intro init a b
      rw [List.foldl_cons, ih, count_adjStep]
      simp only [List.map_cons, List.sum_cons]
      omega

theorem count_buildAdj (store : Store) (a b : String) :
    (buildAdj store a).count b = (store.map (fun r => adjContrib r a b)).sum := by
  rw [buildAdj, count_foldAdj]
  simp

/-- For a symmetric spouse pair with distinct ids, unique ids in the store and
no parent link between the two, each one's id lands exactly twice in the
other's adjacency array (once discovered from each side). -/
theorem count_spouse_pair {store : Store} {A B : PersonRecord}
    (hnodup : (store.map PersonRecord.id).Nodup)
    (hA : A ∈ store) (hB : B ∈ store) (hne : A.id ≠ B.id)
    (hsA : A.spouseId = some B.id) (hsB : B.spouseId = some A.id)
    (hpA : A.parentId ≠ some B.id) (hpB : B.parentId ≠ some A.id) :
    (buildAdj store A.id).count B.id = 2 := by
  rw [count_buildAdj]
  have hpt : ∀ r ∈ store, adjContrib r A.id B.id =
      (if r = A then 1 else 0) + (if r = B then 1 else 0) := by
    intro r hr
    by_cases hrA : r = A
    · subst hrA
      rw [if_pos rfl, if_neg (fun h => hne (by rw [h]))]
      rw [adjContrib, hsA]
      rcases hp : r.parentId with _ | pid
      · simp [hne, Ne.symm hne]
      · have hpidb : pid ≠ B.id := by
          intro h
          exact hpA (by rw [hp, h])
        by_cases hsent : pid = spouseSentinel <;>
          simp [hsent, hne, Ne.symm hne, hpidb, Ne.symm hpidb]
    · by_cases hrB : r = B
      · subst hrB
        rw [if_neg hrA, if_pos rfl]
        rw [adjContrib, hsB]
        rcases hp : r.parentId with _ | pid
        · simp [hne, Ne.symm hne]
        · have hpida : pid ≠ A.id := by
            intro h
            exact hpB (by rw [hp, h])
          by_cases hsent : pid = spouseSentinel <;>
            simp [hsent, hne, Ne.symm hne, hpida, Ne.symm hpida]
      · rw [if_neg hrA, if_neg hrB]
        have hidA : r.id ≠ A.id := fun h =>
          hrA (List.inj_on_of_nodup_map hnodup hr hA h)
        have hidB : r.id ≠ B.id := fun h =>
          hrB (List.inj_on_of_nodup_map hnodup hr hB h)
        rw [adjContrib]
        rcases hp : r.parentId with _ | pid <;> rcases hs : r.spouseId with _ | sid
        · simp
        · simp [Ne.symm hidA, Ne.symm hidB]
        · by_cases hsent : pid = spouseSentinel <;>
            simp [hsent, Ne.symm hidA, Ne.symm hidB]
        · by_cases hsent : pid = spouseSentinel <;>
            simp [hsent, Ne.symm hidA, Ne.symm hidB]
  rw [map_congr_mem hpt, sum_map_add, sum_map_indicator, sum_map_indicator]
  have hmemnd : store.Nodup := List.Nodup.of_map _ hnodup
  rw [List.count_eq_one_of_mem hmemnd hA, List.count_eq_one_of_mem hmemnd hB]

/-- Claim C6 as stated is false: for the symmetric pair A ↔ B the adjacency
array of A contains B twice — the undirected spouse edge is added once from
each side of the pair, not once in total. -/
theorem claim6_counterexample :
    buildAdj [(⟨"a", "A", none, some "b"⟩ : PersonRecord),
      ⟨"b", "B", some "SPOUSE", some "a"⟩] "a" = ["b", "b"] ∧
    (buildAdj [(⟨"a", "A", none, some "b"⟩ : PersonRecord),
      ⟨"b", "B", some "SPOUSE", some "a"⟩] "a").count "b" ≠ 1 := by
  constructor
  · rfl
  · decide

/-- Claim C6, amended: in the adjacency structure built by
`findRelationshipPath`, each symmetric spouse pair contributes its undirected
edge twice, once discovered from each side: with unique ids, distinct
partners and no parent link between the two, each partner occurs exactly
twice in the other's neighbour list.  (The duplicate entries are harmless to
the search: the visited set ignores the second copy.) -/
theorem claim6_amended :
    ∀ (store : Store) (A B : PersonRecord),
      (store.map PersonRecord.id).Nodup →
      A ∈ store → B ∈ store → A.id ≠ B.id →
      A.spouseId = some B.id → B.spouseId = some A.id →
      A.parentId ≠ some B.id → B.parentId ≠ some A.id →
      (buildAdj store A.id).count B.id = 2 ∧ (buildAdj store B.id).count A.id = 2 := by
  intro store A B hnodup hA hB hne hsA hsB hpA hpB
  exact ⟨count_spouse_pair hnodup hA hB hne hsA hsB hpA hpB,
    count_spouse_pair hnodup hB hA (Ne.symm hne) hsB hsA hpB hpA⟩

/-- Claim C6 amended, closed instance. -/
theorem claim6_witness :
    (buildAdj [(⟨"a", "A", none, some "b"⟩ : PersonRecord),
      ⟨"b", "B", some "SPOUSE", some "a"⟩] "a").count "b" = 2 ∧
    (buildAdj [(⟨"a", "A", none, some "b"⟩ : PersonRecord),
      ⟨"b", "B", some "SPOUSE", some "a"⟩] "b").count "a" = 2 :=
  claim6_amended [⟨"a", "A", none, some "b"⟩, ⟨"b", "B", some "SPOUSE", some "a"⟩]
    ⟨"a", "A", none, some "b"⟩ ⟨"b", "B", some "SPOUSE", some "a"⟩
    (by decide) (by decide) (by decide) (by decide) rfl rfl (by decide) (by decide)

/-! ## Claim C2: BFS step preservation lemmas -/

theorem adjChain_mid (adj : String → List String) :
    ∀ (l1 : List String) (w u : String) (l2 : List String),
      adjChain adj (l1 ++ w :: u :: l2) → u ∈ adj w := by
  intro l1
  induction l1 with
  | nil =>
      intro w u l2 h
      simp only [List.nil_append, adjChain] at h
      exact h.1
  | cons a t ih =>
      intro w u l2 h
      cases t with
      | nil =>
          simp only [List.cons_append, List.nil_append, adjChain] at h
          exact ih w u l2 h.2
      | cons b t2 =>
          simp only [List.cons_append, adjChain] at h
          exact ih w u l2 h.2

theorem pairwise_const_le (c : Nat) :
    ∀ l : List Nat, (∀ x ∈ l, x = c) → l.Pairwise (fun m n => m ≤ n) := by
  intro l
  induction l with
  | nil => intro _; exact List.Pairwise.nil
  | cons a t ih =>
      intro h
      refine List.pairwise_cons.mpr ⟨?_, ih fun x hx => h x (List.mem_cons_of_mem _ hx)⟩
      intro b hb
      rw [h a (List.mem_cons_self _ _), h b (List.mem_cons_of_mem _ hb)]

theorem memId_iff_mem_idmap {store : Store} {x : String} :
    memId store x = true ↔ x ∈ store.map PersonRecord.id := by
  rw [memId, List.any_eq_true, List.mem_map]
  constructor
  · rintro ⟨p, hp, hpx⟩
    rw [decide_eq_true_eq] at hpx
    exact ⟨p, hp, hpx⟩
  · rintro ⟨p, hp, hpx⟩
    exact ⟨p, hp, by rw [decide_eq_true_eq]; exact hpx⟩

theorem measure_step (U : List String) {visited : List String} {path : List String}
    {rest : List (List String)} {adjl : List String}
    (hsub : ∀ x ∈ adjl, x ∈ U) :
    bfsMeasure U ((adjl.foldl (enqueueStep path) (rest, visited)).2)
      ((adjl.foldl (enqueueStep path) (rest, visited)).1) <
      bfsMeasure U visited (path :: rest) := by
  obtain ⟨nw, heq, hnd, hmem, _⟩ := enqueue_fold path adjl rest visited
  rw [heq, bfsMeasure, bfsMeasure]
  have hsubF : nw.toFinset ⊆ U.toFinset \ visited.toFinset := by
    intro x hx
    rw [List.mem_toFinset] at hx
    rw [Finset.mem_sdiff, List.mem_toFinset, List.mem_toFinset]
    exact ⟨hsub x (hmem x hx).1, (hmem x hx).2⟩
  have hset : U.toFinset \ (nw.reverse ++ visited).toFinset
      = (U.toFinset \ visited.toFinset) \ nw.toFinset := by
    ext x
    simp only [Finset.mem_sdiff, List.mem_toFinset, List.mem_append, List.mem_reverse]
    tauto
  have hcard : (U.toFinset \ (nw.reverse ++ visited).toFinset).card
      = (U.toFinset \ visited.toFinset).card - nw.length := by
    rw [hset, Finset.card_sdiff hsubF, List.toFinset_card_of_nodup hnd]
  have hle : nw.length ≤ (U.toFinset \ visited.toFinset).card := by
    rw [← List.toFinset_card_of_nodup hnd]
    exact Finset.card_le_card hsubF
  rw [hcard]
  simp only [List.length_append, List.length_cons, List.length_map]
  omega

theorem pendingOrClosed_step {adj : String → List String} {visited : List String}
    {path : List String} {rest : List (List String)}
    (hpc : PendingOrClosed adj visited (path :: rest)) :
    PendingOrClosed adj
      (((adj (path.getLastD "")).foldl (enqueueStep path) (rest, visited)).2)
      (((adj (path.getLastD "")).foldl (enqueueStep path) (rest, visited)).1) := by
  obtain ⟨nw, heq, _, _, hall⟩ := enqueue_fold path (adj (path.getLastD "")) rest visited
  rw [heq]
  intro v hv
  rcases List.mem_append.mp hv with hv | hv
  · rw [List.mem_reverse] at hv
    exact Or.inl ⟨path ++ [v],
      List.mem_append_right _ (List.mem_map.mpr ⟨v, hv, rfl⟩),
      getLastD_append_singleton path v⟩
  · rcases hpc v hv with ⟨p, hp, hplast⟩ | hcl
    · rcases List.mem_cons.mp hp with rfl | hp
      · exact Or.inr fun w hw => hall w (hplast.symm ▸ hw)
      · exact Or.inl ⟨p, List.mem_append_left _ hp, hplast⟩
    · exact Or.inr fun w hw => List.mem_append_right _ (hcl w hw)

theorem targetPending_step {adj : String → List String} {endId : String}
    {visited : List String} {path : List String} {rest : List (List String)}
    (htp : TargetPending endId visited (path :: rest))
    (hend : path.getLastD "" ≠ endId) :
    TargetPending endId
      (((adj (path.getLastD "")).foldl (enqueueStep path) (rest, visited)).2)
      (((adj (path.getLastD "")).foldl (enqueueStep path) (rest, visited)).1) := by
  obtain ⟨nw, heq, _, _, _⟩ := enqueue_fold path (adj (path.getLastD "")) rest visited
  rw [heq]
  intro hv
  rcases List.mem_append.mp hv with hv | hv
  · rw [List.mem_reverse] at hv
    exact ⟨path ++ [endId],
      List.mem_append_right _ (List.mem_map.mpr ⟨endId, hv, rfl⟩),
      getLastD_append_singleton path endId⟩
  · obtain ⟨p, hp, hplast⟩ := htp hv
    rcases List.mem_cons.mp hp with rfl | hp
    · exact absurd hplast hend
    · exact ⟨p, List.mem_append_left _ hp, hplast⟩

theorem sortedLens_step {adjl : List String} {visited : List String}
    {path : List String} {rest : List (List String)}
    (hsl : SortedLens (path :: rest)) :
    SortedLens ((adjl.foldl (enqueueStep path) (rest, visited)).1) := by
  obtain ⟨nw, heq, _, _, _⟩ := enqueue_fold path adjl rest visited
  rw [heq]
  obtain ⟨hpair, hbound⟩ := hsl
  rw [List.map_cons, List.pairwise_cons] at hpair
  obtain ⟨hfirst, hrestpair⟩ := hpair
  have hlenmap : (nw.map fun nb => path ++ [nb]).map List.length
      = nw.map fun _ => path.length + 1 := by
    rw [List.map_map]
    exact map_congr_mem fun x _ => by simp [Function.comp]
  have hboundrest : ∀ p ∈ rest, p.length ≤ path.length + 1 :=
    fun p hp => hbound path rfl p (List.mem_cons_of_mem _ hp)
  constructor
  · rw [List.map_append, List.pairwise_append]
    refine ⟨hrestpair, ?_, ?_⟩
    · rw [hlenmap]
      apply pairwise_const_le (path.length + 1)
      intro x hx
      obtain ⟨_, _, rfl⟩ := List.mem_map.mp hx
      rfl
    · intro x hx y hy
      rw [hlenmap] at hy
      obtain ⟨_, _, rfl⟩ := List.mem_map.mp hy
      obtain ⟨p, hp, rfl⟩ := List.mem_map.mp hx
      exact hboundrest p hp
  · intro p1 hp1 p hp
    cases rest with
    | nil =>
        rw [List.nil_append] at hp1 hp
        obtain ⟨_, _, rfl⟩ := List.mem_map.mp hp
        obtain ⟨_, _, rfl⟩ := List.mem_map.mp (List.mem_of_mem_head? hp1)
        simp
    | cons r1 rest2 =>
        have hp1r : p1 = r1 := by
          rw [List.cons_append, List.head?_cons] at hp1
          exact (Option.some.inj hp1).symm
        subst hp1r
        have hpathr1 : path.length ≤ p1.length := by
          apply hfirst
          exact List.mem_map.mpr ⟨p1, List.mem_cons_self _ _, rfl⟩
        rcases List.mem_append.mp hp with hp | hp
        · rcases List.mem_cons.mp hp with rfl | hp
          · omega
          · have := hboundrest p (List.mem_cons_of_mem _ hp)
            omega
        · obtain ⟨_, _, rfl⟩ := List.mem_map.mp hp
          simp only [List.length_append, List.length_singleton]
          omega

theorem shortestPending_step {adj : String → List String} {s : String}
    {visited : List String} {path : List String} {rest : List (List String)}
    (hs : s ∈ visited)
    (hinv : QueueInv adj s visited (path :: rest))
    (hpc : PendingOrClosed adj visited (path :: rest))
    (hsl : SortedLens (path :: rest))
    (hsp : ShortestPending adj s (path :: rest)) :
    ShortestPending adj s
      (((adj (path.getLastD "")).foldl (enqueueStep path) (rest, visited)).1) := by
  obtain ⟨nw, heq, _, hmem, _⟩ := enqueue_fold path (adj (path.getLastD "")) rest visited
  rw [heq]
  intro p hp l hlne hlhead hlchain hllast
  rcases List.mem_append.mp hp with hp | hp
  · exact hsp p (List.mem_cons_of_mem _ hp) l hlne hlhead hlchain hllast
  · obtain ⟨nb, hnb, rfl⟩ := List.mem_map.mp hp
    have hpne : path ≠ [] := (hinv path (List.mem_cons_self _ _)).1
    have hnbvis : nb ∉ visited := (hmem nb hnb).2
    -- the target list ends at nb
    have hlnb : l.getLast? = some nb := by
      rw [hllast, List.getLast?_concat]
    -- split the target list at its last visited node
    have hsmem : s ∈ l := List.mem_of_mem_head? (by rw [hlhead]; rfl)
    obtain ⟨l1, w, l2, hdec, hwvis, hl2⟩ := split_last_mem visited l ⟨s, hsmem, hs⟩
    -- the unvisited suffix is non-empty since nb is unvisited
    cases l2 with
    | nil =>
        exfalso
        rw [hdec, List.getLast?_concat] at hlnb
        have : w = nb := Option.some.inj hlnb
        subst this
        exact hnbvis hwvis
    | cons u l2t =>
        have hu : u ∈ adj w := adjChain_mid adj l1 w u l2t (hdec ▸ hlchain)
        have huvis : u ∉ visited := hl2 u (List.mem_cons_self _ _)
        -- w still has its pending path: it cannot be closed
        rcases hpc w hwvis with ⟨pw, hpw, hpwlast⟩ | hcl
        · -- pw is a shortest path to w, and the queue is sorted
          have hpwne : pw ≠ [] := (hinv pw hpw).1
          have hfront : pw.length ≤ (l1 ++ [w]).length := by
            apply hsp pw hpw
            · simp
            · have : (l1 ++ w :: u :: l2t).head? = (l1 ++ [w]).head? := by
                cases l1 <;> rfl
              rw [← this, ← hdec, hlhead]
            · exact adjChain_front adj l1 w (u :: l2t) (hdec ▸ hlchain)
            · rw [List.getLast?_concat, getLast?_of_ne_nil hpwne, hpwlast]
          have hminq : path.length ≤ pw.length := by
            rcases List.mem_cons.mp hpw with rfl | hpw2
            · exact le_refl _
            · have h1 := hsl.1
              rw [List.map_cons, List.pairwise_cons] at h1
              exact h1.1 pw.length (List.mem_map.mpr ⟨pw, hpw2, rfl⟩)
          have hllen : l.length = l1.length + 1 + (l2t.length + 1) := by
            rw [hdec]
            simp only [List.length_append, List.length_cons]
            omega
          have hfront2 : pw.length ≤ l1.length + 1 := by
            simpa using hfront
          have hgoal : path.length + 1 ≤ l.length := by omega
          simpa using hgoal
        · exact absurd (hcl u hu) huvis

/-- Completeness and minimality of the BFS loop: from a state satisfying the
invariants, with enough fuel, if an adjacency path from `s` to `endId` exists
then the loop returns a path no longer than it. -/
theorem bfsAux_complete (adj : String → List String) (s endId : String) (U : List String)
    (hU : ∀ a : String, ∀ b ∈ adj a, b ∈ U) :
    ∀ (fuel : Nat) (queue : List (List String)) (visited : List String),
      bfsMeasure U visited queue < fuel →
      s ∈ visited →
      QueueInv adj s visited queue →
      PendingOrClosed adj visited queue →
      TargetPending endId visited queue →
      SortedLens queue →
      ShortestPending adj s queue →
      ∀ ltarget : List String, ltarget ≠ [] → ltarget.head? = some s →
        adjChain adj ltarget → ltarget.getLast? = some endId →
        ∃ res, bfsAux adj endId fuel queue visited = some res ∧
          res.length ≤ ltarget.length := by
  intro fuel
  induction fuel with
  | zero =>
      intro queue visited hfuel
      exact absurd hfuel (Nat.not_lt_zero _)
  | succ fuel ih =>
      intro queue visited hfuel hs hinv hpc htp hsl hsp ltarget hlne hlhead hlchain hllast
      rcases queue with _ | ⟨path, rest⟩
      · exfalso
        have hclosed : ∀ v ∈ visited, ∀ w ∈ adj v, w ∈ visited := by
          intro v hv
          rcases hpc v hv with ⟨p, hp, _⟩ | h
          · simp at hp
          · exact h
        have hallmem := chain_closed_subset adj visited hclosed ltarget hlchain s hlhead hs
        have hendvis : endId ∈ visited :=
          hallmem endId (List.mem_of_mem_getLast? hllast)
        obtain ⟨p, hp, _⟩ := htp hendvis
        simp at hp
      · rw [bfsAux]
        by_cases hend : path.getLastD "" = endId
        · rw [if_pos hend]
          refine ⟨path, rfl, ?_⟩
          apply hsp path (List.mem_cons_self _ _) ltarget hlne hlhead hlchain
          have hpne : path ≠ [] := (hinv path (List.mem_cons_self _ _)).1
          rw [hllast, getLast?_of_ne_nil hpne, hend]
        · rw [if_neg hend]
          apply ih _ _ ?_ ?_ ?_ ?_ ?_ ?_ ?_ ltarget hlne hlhead hlchain hllast
          · have hms := @measure_step U visited path rest (adj (path.getLastD ""))
              (hU (path.getLastD ""))
            omega
          · obtain ⟨nw, heq, _, _, _⟩ :=
              enqueue_fold path (adj (path.getLastD "")) rest visited
            rw [heq]
            exact List.mem_append_right _ hs
          · exact queueInv_step hinv
          · exact pendingOrClosed_step hpc
          · exact targetPending_step htp hend
          · exact sortedLens_step hsl
          · exact shortestPending_step hs hinv hpc hsl hsp

/-- Claim C2 as stated is false: with dangling parent references the BFS
graph contains the nonexistent id as a node, the search reaches the target
through it, and path reconstruction dereferences the missing record — an
uncaught TypeError, not a path and not the null no-relationship outcome. -/
theorem claim2_counterexample :
    findRelationshipPath [(⟨"a", "A", some "x", none⟩ : PersonRecord),
      ⟨"b", "B", some "x", none⟩] "a" "b" = .error () := rfl

/-- Claim C2, amended: on stores with no dangling parent/spouse references
and a `startId` that has a record, `findRelationshipPath` returns a path of
minimum edge count among all paths of the resolvable-link graph whenever one
exists, and `null` (no error) when none exists. -/
theorem claim2_amended :
    ∀ (store : Store) (startId endId : String),
      noDangling store = true →
      memId store startId = true →
      ((∃ l, IsPath store startId endId l) →
        ∃ segs, findRelationshipPath store startId endId = .ok (some segs) ∧
          IsPath store startId endId (segs.map fun sg => sg.personId) ∧
          ∀ l, IsPath store startId endId l → segs.length ≤ l.length) ∧
      ((¬ ∃ l, IsPath store startId endId l) →
        findRelationshipPath store startId endId = .ok none) := by
  intro store s e hnd hmem
  have hU : ∀ a : String, ∀ b ∈ buildAdj store a, b ∈ mentions store :=
    fun a b h => mem_mentions_of_buildAdj h
  have hconv : ∀ l, IsPath store s e l →
      l ≠ [] ∧ l.head? = some s ∧ adjChain (buildAdj store) l ∧ l.getLast? = some e := by
    rintro l ⟨hh, hl, hc⟩
    have hne : l ≠ [] := by
      intro h
      rw [h] at hh
      exact Option.noConfusion hh
    exact ⟨hne, hh, (edgeChain_iff_adjChain hnd l).mp hc, hl⟩
  have hΦ : bfsMeasure (mentions store) [s] [[s]] < 2 * (mentions store).length + 2 := by
    rw [bfsMeasure]
    have h1 : ((mentions store).toFinset \ [s].toFinset).card ≤ (mentions store).length :=
      le_trans (Finset.card_le_card Finset.sdiff_subset) (List.toFinset_card_le _)
    simp only [List.length_singleton]
    omega
  have hpc0 : PendingOrClosed (buildAdj store) [s] [[s]] := by
    intro v hv
    simp only [List.mem_singleton] at hv
    subst hv
    exact Or.inl ⟨[v], List.mem_singleton.mpr rfl, rfl⟩
  have htp0 : TargetPending e [s] [[s]] := by
    intro hv
    simp only [List.mem_singleton] at hv
    exact ⟨[s], List.mem_singleton.mpr rfl, by rw [hv]; rfl⟩
  have hsl0 : SortedLens [[s]] := by
    constructor
    · simp
    · intro p1 hp1 p hp
      simp only [List.head?_cons, Option.some.injEq] at hp1
      subst hp1
      simp only [List.mem_singleton] at hp
      subst hp
      simp
  have hsp0 : ShortestPending (buildAdj store) s [[s]] := by
    intro p hp l hlne _ _ _
    simp only [List.mem_singleton] at hp
    subst hp
    have : 1 ≤ l.length := by
      cases l with
      | nil => exact absurd rfl hlne
      | cons a t => simp
    simpa using this
  constructor
  · rintro ⟨l0, hl0⟩
    obtain ⟨hne0, hh0, hc0, hl0e⟩ := hconv l0 hl0
    obtain ⟨res, hres, _⟩ := bfsAux_complete (buildAdj store) s e (mentions store) hU
      (2 * (mentions store).length + 2) [[s]] [s] hΦ (List.mem_singleton.mpr rfl)
      (queueInv_init _ _) hpc0 htp0 hsl0 hsp0 l0 hne0 hh0 hc0 hl0e
    obtain ⟨hrne, hrhead, _, hrchain, hrlast⟩ :=
      bfsAux_sound (buildAdj store) s e _ _ _ (queueInv_init _ _) res hres
    have hmemall : ∀ x ∈ res, memId store x = true := by
      intro x hx
      rw [memId_iff_mem_idmap]
      refine chain_closed_subset (buildAdj store) (store.map PersonRecord.id)
        ?_ res hrchain s hrhead ?_ x hx
      · intro v _ w hw
        exact memId_iff_mem_idmap.mp (memId_of_mem_buildAdj hnd hw)
      · exact memId_iff_mem_idmap.mp hmem
    obtain ⟨segs, hsegs⟩ := reconstructPath_exists store res hmemall
    have hfrp : findRelationshipPath store s e = .ok (some segs) := by
      simp only [findRelationshipPath]
      rw [hres]
      show (match reconstructPath store res with
        | some segs2 => (Except.ok (some segs2) : Except Unit (Option (List PathSegment)))
        | none => Except.error ()) = Except.ok (some segs)
      rw [hsegs]
    obtain ⟨hids, _⟩ := reconstructPath_spec store res segs hsegs
    refine ⟨segs, hfrp, ?_, ?_⟩
    · rw [hids]
      exact ⟨hrhead, hrlast, (edgeChain_iff_adjChain hnd res).mpr hrchain⟩
    · intro l hl
      obtain ⟨hnel, hhl, hcl, hll⟩ := hconv l hl
      obtain ⟨res2, hres2, hlen2⟩ := bfsAux_complete (buildAdj store) s e (mentions store)
        hU (2 * (mentions store).length + 2) [[s]] [s] hΦ (List.mem_singleton.mpr rfl)
        (queueInv_init _ _) hpc0 htp0 hsl0 hsp0 l hnel hhl hcl hll
      rw [hres] at hres2
      have : res2 = res := (Option.some.inj hres2).symm
      subst this
      have hsl2 : segs.length = res2.length := by
        rw [← hids, List.length_map]
      omega
  · intro hnopath
    rcases hb : bfsAux (buildAdj store) e (2 * (mentions store).length + 2)
        [[s]] [s] with _ | path
    · simp only [findRelationshipPath]
      rw [hb]
    · exfalso
      obtain ⟨_, hrhead, _, hrchain, hrlast⟩ :=
        bfsAux_sound (buildAdj store) s e _ _ _ (queueInv_init _ _) path hb
      exact hnopath ⟨path, hrhead, hrlast, (edgeChain_iff_adjChain hnd path).mpr hrchain⟩

/-- Claim C2 amended, closed instance. -/
theorem claim2_witness :
    ∃ segs, findRelationshipPath
        [(⟨"a", "A", none, none⟩ : PersonRecord), ⟨"b", "B", some "a", some "c"⟩,
         ⟨"c", "C", some "SPOUSE", some "b"⟩] "a" "c" = .ok (some segs) ∧
      IsPath [(⟨"a", "A", none, none⟩ : PersonRecord), ⟨"b", "B", some "a", some "c"⟩,
         ⟨"c", "C", some "SPOUSE", some "b"⟩] "a" "c" (segs.map fun sg => sg.personId) ∧
      ∀ l, IsPath [(⟨"a", "A", none, none⟩ : PersonRecord), ⟨"b", "B", some "a", some "c"⟩,
         ⟨"c", "C", some "SPOUSE", some "b"⟩] "a" "c" l → segs.length ≤ l.length :=
  (claim2_amended
    [⟨"a", "A", none, none⟩, ⟨"b", "B", some "a", some "c"⟩,
     ⟨"c", "C", some "SPOUSE", some "b"⟩] "a" "c" (by decide) (by decide)).1
    ⟨["a", "b", "c"], rfl, rfl, by decide, by decide, trivial⟩

end FamilyTree
